import Mathlib

/-!
# Verification of the social-graph analytics engine

Shallow embedding of `src/services/graphUtils.ts` and
`src/services/geminiService.ts` in Lean 4, together with proofs of the
specification's claims about them.

Modelling conventions:
* JavaScript numbers are modelled by `ℚ` (exact arithmetic); the places where
  JavaScript division can produce `NaN`/`Infinity` (the global metric
  computations) use the explicit `JSNum` type with `jsDiv`.
* JavaScript `Map`s (insertion-ordered, unique keys) are modelled by
  association lists with `jsSet` (update-in-place if the key is present,
  append otherwise) and `lookupD` (lookup with default).
* `Math.random()`-driven behaviour is an explicit parameter: the community
  shuffle becomes a per-round list of node positions, and the generator draws
  from an injected stream `ℕ → ℚ` of values in `[0, 1)`.
* The generator's unbounded retry loop (a documented termination risk) is
  modelled with explicit fuel, returning `Option`.
-/

namespace GraphSpec

/-! ## JS-semantics helpers -/

/-- `m.get(k)` with a default, JS `Map.get(k) || dflt` style lookup on an
insertion-ordered association list: the value of the first entry whose key
matches, or the default. -/
def lookupD [DecidableEq κ] : List (κ × ν) → κ → ν → ν
  | [], _, dflt => dflt
  | p :: m, k, dflt => if p.1 = k then p.2 else lookupD m k dflt

/-- JS `Map.set(k, v)`: replace the value in place if the key is present
(keeping insertion order), otherwise append a new entry. -/
def jsSet [DecidableEq κ] (m : List (κ × ν)) (k : κ) (v : ν) : List (κ × ν) :=
  if ∃ p ∈ m, p.1 = k then
    m.map (fun p => if p.1 = k then (k, v) else p)
  else
    m ++ [(k, v)]

/-- JS `Array.prototype.indexOf`: index of the first occurrence, `-1` if
absent. -/
def jsIndexOf [DecidableEq α] (l : List α) (a : α) : Int :=
  if a ∈ l then (l.indexOf a : Int) else -1

/-- Worker for `dedupFirst`: keep the elements not yet seen, in order,
threading the set of seen elements. -/
def dedupFirstAux [DecidableEq α] (seen : List α) : List α → List α
  | [] => []
  | a :: l => if a ∈ seen then dedupFirstAux seen l else a :: dedupFirstAux (seen ++ [a]) l

/-- `Array.from(new Set(l))`: deduplication keeping the first occurrence of
each element, in order. -/
def dedupFirst [DecidableEq α] (l : List α) : List α :=
  dedupFirstAux [] l

/-- Result of a JavaScript floating-point division, keeping the non-finite
outcomes `NaN`, `Infinity` and `-Infinity` explicit. -/
inductive JSNum where
  | num (q : ℚ)
  | nan
  | inf
  | negInf
deriving DecidableEq, Repr

/-- JavaScript division `a / b` on numbers: finite when `b ≠ 0`, `NaN` for
`0 / 0`, `±Infinity` for `a / 0` with `a ≠ 0`. -/
def jsDiv (a b : ℚ) : JSNum :=
  if b = 0 then
    if a = 0 then JSNum.nan
    else if 0 < a then JSNum.inf
    else JSNum.negInf
  else JSNum.num (a / b)

/-- The decimal digit character for `d < 10`. -/
def digitChar (d : ℕ) : Char :=
  Char.ofNat (48 + d)

/-- Decimal digit rendering with explicit fuel (the fuel `n + 1` always
suffices for rendering `n`). -/
def natDigitsAux : ℕ → ℕ → List Char
  | 0, _ => []
  | fuel + 1, n =>
    if n < 10 then [digitChar n]
    else natDigitsAux fuel (n / 10) ++ [digitChar (n % 10)]

/-- Decimal rendering of a natural number, digit by digit; the JS
number-to-string conversion for the naturals used by this code. -/
def natDigits (n : ℕ) : List Char :=
  natDigitsAux (n + 1) n

/-- JS template-literal conversion of a natural number to its decimal
string. -/
def natToStr (n : ℕ) : String :=
  String.mk (natDigits n)

/-! ## Data model (`src/types`, restricted to the analytics fields; the
transient rendering fields `x`, `y`, `vx`, `vy` are not part of the model). -/

/-- A graph node with its metric fields. -/
structure Node where
  id : String
  degree : ℕ
  inDegree : ℕ
  outDegree : ℕ
  betweenness : ℚ
  pagerank : ℚ
  group : Int
deriving DecidableEq, Repr

/-- A directed edge, canonically a pair of node ids (the duck-typed
`string | Node` endpoints of the source always resolve to the id before
use). -/
structure Link where
  source : String
  target : String
deriving DecidableEq, Repr

/-- The graph model: node list plus edge list. -/
structure GraphData where
  nodes : List Node
  links : List Link
deriving DecidableEq, Repr

/-- The graph-level summary metrics record. -/
structure NetworkMetrics where
  nodeCount : ℕ
  edgeCount : ℕ
  density : JSNum
  avgDegree : JSNum
  diameter : String
  modularity : JSNum
deriving DecidableEq, Repr

/-- A fresh node record with all metric fields zero, as inserted by
`buildGraphFromLinks`. -/
def mkNode (id : String) : Node :=
  { id := id, degree := 0, inDegree := 0, outDegree := 0,
    betweenness := 0, pagerank := 0, group := 0 }

/-- Does the node list contain a node with the given id (`nodeMap.has`)? -/
def hasId (ns : List Node) (s : String) : Prop :=
  ∃ n ∈ ns, n.id = s

instance (ns : List Node) (s : String) : Decidable (hasId ns s) :=
  List.decidableBEx _ ns

/-- Process one link while building the node list: insert the source, then
the target, each only if not yet present. -/
def buildStep (acc : List Node) (l : Link) : List Node :=
  let acc := if hasId acc l.source then acc else acc ++ [mkNode l.source]
  if hasId acc l.target then acc else acc ++ [mkNode l.target]

/-- The node list built from a link list: insert each endpoint on first
sight, in encounter order (`buildGraphFromLinks`, node map part). -/
def buildNodes (links : List Link) : List Node :=
  links.foldl buildStep []

/-- `buildGraphFromLinks`: deduplicated node set derived from the edge list,
edges appended unchanged. -/
def buildGraphFromLinks (links : List Link) : GraphData :=
  { nodes := buildNodes links, links := links }

/-! ## `calculateMetrics`, phase 1: degree centrality -/

/-- Reset all three degree counters to 0. -/
def resetDegrees (nodes : List Node) : List Node :=
  nodes.map (fun n => { n with degree := 0, inDegree := 0, outDegree := 0 })

/-- The per-node effect of one link of the degree loop: the source gets
out-degree and degree bumped, then the target gets in-degree and degree
bumped (a self-loop bumps the same node twice). -/
def bumpNode (l : Link) (n : Node) : Node :=
  let n1 := if n.id = l.source then
      { n with outDegree := n.outDegree + 1, degree := n.degree + 1 }
    else n
  if n1.id = l.target then
    { n1 with inDegree := n1.inDegree + 1, degree := n1.degree + 1 }
  else n1

/-- Process one link of the degree loop: if both endpoints resolve in the
node map, apply `bumpNode`; otherwise the link contributes nothing. -/
def bumpDegrees (ns : List Node) (l : Link) : List Node :=
  if (∃ n ∈ ns, n.id = l.source) ∧ (∃ n ∈ ns, n.id = l.target) then
    ns.map (bumpNode l)
  else ns

/-- Degree-centrality phase: reset, then fold the link list. -/
def applyDegrees (nodes : List Node) (links : List Link) : List Node :=
  links.foldl bumpDegrees (resetDegrees nodes)

/-! ## `calculateMetrics`, phase 2: PageRank -/

/-- The damping factor `d = 0.85`. -/
def damping : ℚ := 85 / 100

/-- `n.pagerank = 1 / nodes.length` initialization. -/
def initRanks (ns : List Node) : List Node :=
  ns.map (fun n => { n with pagerank := 1 / (ns.length : ℚ) })

/-- One link of the PageRank inner loop: if the source resolves and has
positive out-degree, add `d * rank(source) / outDegree(source)` to the
accumulating new rank of the target. -/
def rankStep (ns : List Node) (m : List (String × ℚ)) (l : Link) : List (String × ℚ) :=
  match ns.find? (fun n => n.id = l.source) with
  | some s =>
      if 0 < s.outDegree then
        jsSet m l.target (lookupD m l.target 0 + damping * s.pagerank / (s.outDegree : ℚ))
      else m
  | none => m

/-- One PageRank round: start every node at `(1 - d) / N`, fold the links,
then write the new vector back. -/
def rankRound (ns : List Node) (links : List Link) : List Node :=
  let base : List (String × ℚ) := ns.map (fun n => (n.id, (1 - damping) / (ns.length : ℚ)))
  let newRanks := links.foldl (rankStep ns) base
  ns.map (fun n => { n with pagerank := lookupD newRanks n.id 0 })

/-- `k` PageRank rounds (the source runs exactly 20). -/
def rankIter : ℕ → List Node → List Link → List Node
  | 0, ns, _ => ns
  | k + 1, ns, links => rankIter k (rankRound ns links) links

/-! ## `calculateMetrics`, phase 3: label-propagation community detection -/

/-- Initial labels: node `i` (construction order) gets label `i.toString()`,
in an insertion-ordered map keyed by node id. -/
def initLabels (ids : List String) : List (String × String) :=
  ids.enum.map (fun p => (p.2, natToStr p.1))

/-- The neighbor-label list of a node: for every link touching it (in either
direction) push the current label of the other endpoint. -/
def neighborLabelsOf (links : List Link) (labels : List (String × String))
    (nid : String) : List String :=
  links.foldl
    (fun acc l =>
      let acc := if l.source = nid then acc ++ [lookupD labels l.target ""] else acc
      if l.target = nid then acc ++ [lookupD labels l.source ""] else acc)
    []

/-- One step of the frequency scan: bump the tally of the current label; it
becomes the new best only if its tally strictly exceeds the running
maximum. -/
def scanStep (st : List (String × ℕ) × ℕ × String) (lbl : String) :
    List (String × ℕ) × ℕ × String :=
  let f := lookupD st.1 lbl 0 + 1
  let freq := jsSet st.1 lbl f
  if st.2.1 < f then (freq, f, lbl) else (freq, st.2.1, st.2.2)

/-- The most-frequent-label scan, starting from the node's own label with
running maximum 0. -/
def bestLabelScan (nls : List String) (own : String) : String :=
  (nls.foldl scanStep ([], 0, own)).2.2

/-- Visit one node: gather neighbor labels; if there are any, adopt the
scan winner, otherwise leave the label map unchanged. -/
def visitNode (links : List Link) (labels : List (String × String))
    (nid : String) : List (String × String) :=
  let nls := neighborLabelsOf links labels nid
  if 0 < nls.length then
    jsSet labels nid (bestLabelScan nls (lookupD labels nid ""))
  else labels

/-- One propagation round: process the given visit order left to right, each
visit reading the labels already updated by earlier visits of the same
round. -/
def labelRound (links : List Link) (order : List String)
    (labels : List (String × String)) : List (String × String) :=
  order.foldl (visitNode links) labels

/-- The visit order of a round: the shuffled positions resolved to node ids
(the random comparator shuffle permutes array positions independently of the
node contents). -/
def orderOf (ids : List String) (perm : List ℕ) : List String :=
  perm.filterMap (fun i => ids.get? i)

/-- The five propagation rounds, with the per-round shuffled orders supplied
by `shuffle`. -/
def communityLabels (ids : List String) (links : List Link)
    (shuffle : ℕ → List ℕ) : List (String × String) :=
  (List.range 5).foldl
    (fun L i => labelRound links (orderOf ids (shuffle i)) L)
    (initLabels ids)

/-- Spec-side tie-break property for the frequency scan (used only to state
the label-propagation claim): `w` is the first label of `nls` whose running
tally reaches `M` — at some position `i` the label is `w` and its count in
the prefix up to `i` is `M`, while at every earlier position the label there
has a strictly smaller prefix count. -/
def firstEncounteredMax (nls : List String) (M : ℕ) (w : String) : Prop :=
  ∃ i, nls.get? i = some w ∧ (nls.take (i + 1)).count w = M ∧
    ∀ j < i, ∀ l, nls.get? j = some l → (nls.take (j + 1)).count l < M

/-- The invariant carried by the frequency scan after processing the prefix
`nls`: the tally list records exact occurrence counts, the running maximum
bounds every count, and the current best is the node's own label while the
maximum is `0`, otherwise the first label to have reached the maximum. -/
def scanInv (nls : List String) (own : String)
    (st : List (String × ℕ) × ℕ × String) : Prop :=
  (∀ l, lookupD st.1 l 0 = nls.count l) ∧
  (∀ l, nls.count l ≤ st.2.1) ∧
  (st.2.1 = 0 → st.2.2 = own) ∧
  (st.2.1 ≠ 0 → firstEncounteredMax nls st.2.1 st.2.2)

/-! ## `calculateMetrics`, assembled -/

/-- Community-id assignment: numeric group ids are indices into the
first-occurrence deduplication of the final label values. -/
def assignGroups (ns : List Node) (labels : List (String × String)) : List Node :=
  ns.map (fun n =>
    { n with group :=
        (jsIndexOf (dedupFirst (labels.map (fun p => p.2))) (lookupD labels n.id "")) })

/-- Phases 1–2 of `calculateMetrics`: degree centrality followed by the 20
PageRank rounds. -/
def rankedNodes (data : GraphData) : List Node :=
  rankIter 20 (initRanks (applyDegrees data.nodes data.links)) data.links

/-- Phase 3 of `calculateMetrics`: the final label map after the 5
label-propagation rounds. -/
def finalLabels (data : GraphData) (shuffle : ℕ → List ℕ) : List (String × String) :=
  communityLabels ((rankedNodes data).map (fun n => n.id)) data.links shuffle

/-- The full node output of `calculateMetrics`. -/
def updatedNodes (data : GraphData) (shuffle : ℕ → List ℕ) : List Node :=
  assignGroups (rankedNodes data) (finalLabels data shuffle)

/-- The global-metrics record computed at the end of `calculateMetrics`:
`density = E / (N * (N - 1))` and `avgDegree = E / N`, both as unguarded JS
divisions, plus the community-count based modularity proxy. -/
def networkSummary (data : GraphData) (shuffle : ℕ → List ℕ) : NetworkMetrics :=
  let links := data.links
  let ns3 := updatedNodes data shuffle
  let uniqueLabels := dedupFirst ((finalLabels data shuffle).map (fun p => p.2))
  { nodeCount := ns3.length
    edgeCount := links.length
    density := jsDiv (links.length : ℚ) ((ns3.length : ℚ) * ((ns3.length : ℚ) - 1))
    avgDegree := jsDiv (links.length : ℚ) (ns3.length : ℚ)
    diameter := "N/A (Compute Heavy)"
    modularity := jsDiv (uniqueLabels.length : ℚ) (ns3.length : ℚ) }

/-- The full metric pipeline of `calculateMetrics`: degree centrality, 20
PageRank rounds, 5 label-propagation rounds with community-id assignment,
then the global metrics.  `shuffle` injects the per-round random visit
orders. -/
def calculateMetrics (data : GraphData) (shuffle : ℕ → List ℕ) :
    List Node × NetworkMetrics :=
  (updatedNodes data shuffle, networkSummary data shuffle)

/-- Sum of the `pagerank` fields of a node list. -/
def totalRank (ns : List Node) : ℚ :=
  (ns.map (fun n => n.pagerank)).sum

/-! ## `generateSampleData`: preferential-attachment generator

The source's growth loop (`while (addedLinks < targetLinks)`) has no
iteration bound, so the embedding threads explicit fuel and returns `none`
when the fuel runs out.  The random stream `rng : ℕ → ℚ` models the
successive `Math.random()` draws (values in `[0, 1)`), consumed one per
`while` iteration. -/

/-- The id `` `User_${i}` `` of the `i`-th created node. -/
def userId (i : ℕ) : String :=
  "User_" ++ natToStr i

/-- The seed links: the complete graph on `User_0 .. User_4`, in the
source's nested-loop order. -/
def seedLinks : List Link :=
  (List.range 5).flatMap (fun i =>
    ((List.range 5).filter (fun j => i < j)).map (fun j =>
      { source := userId i, target := userId j }))

/-- The seed node ids, in creation order. -/
def seedIds : List String :=
  (List.range 5).map userId

/-- Number of links incident to `v` (either endpoint), the generator's
degree count `links.filter(l => l.source === id || l.target === id).length`. -/
def countIncident (links : List Link) (v : String) : ℕ :=
  (links.filter (fun l => l.source = v ∨ l.target = v)).length

/-- `links.some(...)`: does an edge between `a` and `b` already exist, in
either direction? -/
def linkExists (links : List Link) (a b : String) : Prop :=
  ∃ l ∈ links, (l.source = a ∧ l.target = b) ∨ (l.source = b ∧ l.target = a)

instance (links : List Link) (a b : String) : Decidable (linkExists links a b) :=
  List.decidableBEx _ links

/-- Walk the cumulative attachment-weight array: return the first id whose
running cumulative weight reaches `rand` (the source's inner `for` loop with
its `break`). -/
def walkCumulative : List (String × ℕ) → ℚ → ℚ → Option String
  | [], _, _ => none
  | (id, w) :: rest, cum, rand =>
      let cum := cum + (w : ℚ)
      if rand ≤ cum then some id else walkCumulative rest cum rand

/-- One iteration budgeted attachment loop for a single new node: keep
drawing until 2 links have been added (retrying on duplicate-edge collisions
and on draws that select nothing), or the fuel runs out.  Returns the grown
link list and the updated position in the random stream. -/
def growLoop (newId : String) (pairs : List (String × ℕ)) (total : ℕ)
    (rng : ℕ → ℚ) : ℕ → List Link → ℕ → ℕ → Option (List Link × ℕ)
  | t, links, added, 0 => if added < 2 then none else some (links, t)
  | t, links, added, fuel + 1 =>
      if added < 2 then
        let rand := rng t * (total : ℚ)
        match walkCumulative pairs 0 rand with
        | some target =>
            if linkExists links newId target then
              growLoop newId pairs total rng (t + 1) links added fuel
            else
              growLoop newId pairs total rng (t + 1)
                (links ++ [{ source := newId, target := target }]) (added + 1) fuel
        | none => growLoop newId pairs total rng (t + 1) links added fuel
      else some (links, t)

/-- The growth phase: add `count` nodes one at a time (`i` is the index of
the next node), each attaching 2 edges by preferential attachment with
freshly recomputed degree weights. -/
def growAll (rng : ℕ → ℚ) (fuel : ℕ) :
    ℕ → ℕ → List String → List Link → ℕ → Option (List String × List Link × ℕ)
  | 0, _, ids, links, t => some (ids, links, t)
  | count + 1, i, ids, links, t =>
      let newId := userId i
      let ids := ids ++ [newId]
      let degrees := ids.map (fun id => countIncident links id + 1)
      let total := degrees.sum
      let pairs := ids.dropLast.zip degrees
      match growLoop newId pairs total rng t links 0 fuel with
      | some (links, t) => growAll rng fuel count (i + 1) ids links t
      | none => none

/-- `generateSampleData`: seed complete graph on 5 nodes, preferential
attachment up to `n` nodes, then `buildGraphFromLinks` over the resulting
edge list. -/
def generateSampleData (n : ℕ) (rng : ℕ → ℚ) (fuel : ℕ) : Option GraphData :=
  (growAll rng fuel (n - 5) 5 seedIds seedLinks 0).map
    (fun r => buildGraphFromLinks r.2.1)

/-! ## `geminiService.analyzeNetworkWithGemini`

The external text-generation collaborator (`ai.models.generateContent`) is a
parameter `gen`; a thrown error is its `Except.error` outcome.  The `try`
block builds the prompt, calls the collaborator and substitutes
`"Analysis generation failed."` for an empty response; the `catch` block
maps any failure to the fixed fallback string. -/

/-- `toFixed(digits)` on an exact rational: fixed-point decimal rendering
with round-half-away-from-zero (the idealization of the JS float
rendering). -/
def toFixedStr (q : ℚ) (digits : ℕ) : String :=
  let scaled : ℚ := |q| * ((10 : ℚ) ^ digits) + 1 / 2
  let m : ℕ := scaled.floor.toNat
  let ip := m / 10 ^ digits
  let fp := m % 10 ^ digits
  let fpRaw := natToStr fp
  let pad := String.mk (List.replicate (digits - fpRaw.length) '0') ++ fpRaw
  (if q < 0 then "-" else "") ++ natToStr ip ++
    (if digits = 0 then "" else "." ++ pad)

/-- `toFixed` on a possibly non-finite JS number. -/
def jsNumToFixed (x : JSNum) (digits : ℕ) : String :=
  match x with
  | JSNum.num q => toFixedStr q digits
  | JSNum.nan => "NaN"
  | JSNum.inf => "Infinity"
  | JSNum.negInf => "-Infinity"

/-- Insertion into a list sorted by descending pagerank (stable numeric
descending sort, the comparator `(a, b) => b.pagerank - a.pagerank`). -/
def insertByRank (n : Node) : List Node → List Node
  | [] => [n]
  | m :: rest => if m.pagerank < n.pagerank then n :: m :: rest else m :: insertByRank n rest

/-- Stable sort by descending pagerank. -/
def sortByRankDesc (ns : List Node) : List Node :=
  ns.foldr insertByRank []

/-- The prompt string handed to the text-generation collaborator. -/
def buildPrompt (data : GraphData) (metrics : NetworkMetrics) : String :=
  let topInfluencers :=
    String.intercalate ", "
      (((sortByRankDesc data.nodes).take 5).map
        (fun n => n.id ++ " (PageRank: " ++ toFixedStr n.pagerank 3 ++ ")"))
  let communities := (dedupFirst (data.nodes.map (fun n => n.group))).length
  "\n      Act as a Senior Data Analyst specializing in Social Network Analysis (SNA).\n" ++
  "      I have performed a network analysis on a Twitter follower dataset using NetworkX-like algorithms.\n" ++
  "      \n      Here are the computed metrics:\n" ++
  "      - Total Nodes: " ++ natToStr metrics.nodeCount ++ "\n" ++
  "      - Total Edges: " ++ natToStr metrics.edgeCount ++ "\n" ++
  "      - Graph Density: " ++ jsNumToFixed metrics.density 4 ++ "\n" ++
  "      - Average Degree: " ++ jsNumToFixed metrics.avgDegree 2 ++ "\n" ++
  "      - Detected Communities: " ++ natToStr communities ++ "\n" ++
  "      \n      Top Influencers (by PageRank):\n      " ++ topInfluencers ++ "\n" ++
  "      \n      Please provide a concise but professional analysis report (approx 200 words) covering:\n" ++
  "      1. **Network Structure**: Is it dense/sparse? What does this imply about information flow?\n" ++
  "      2. **Key Players**: Who are the opinion leaders?\n" ++
  "      3. **Community Insight**: Interpretation of the community count.\n" ++
  "      \n      Format the output with Markdown headers. Use data analyst terminology (e.g., \"clustering\", \"centrality\", \"bridge nodes\").\n    "

/-- The static fallback message produced by the `catch` block. -/
def fallbackMessage : String :=
  "Unable to generate AI analysis at this time. Please check your API key."

/-- The substitute for an empty collaborator response (`response.text || ...`). -/
def emptyResponseMessage : String :=
  "Analysis generation failed."

/-- `analyzeNetworkWithGemini`, with the collaborator's behaviour supplied
as `gen`: a failing collaborator call is caught and replaced by the fixed
fallback string. -/
def analyzeNetworkWithGemini (gen : String → Except String String)
    (data : GraphData) (metrics : NetworkMetrics) : String :=
  match gen (buildPrompt data metrics) with
  | Except.ok t => if t = "" then emptyResponseMessage else t
  | Except.error _ => fallbackMessage

/-- The numeric value of a decimal digit character (decoder used to reason
about the generated `User_i` ids). -/
def digitVal (c : Char) : ℕ :=
  c.toNat - 48

/-- Decode a decimal digit list back to the number it renders. -/
def digitsToNat (l : List Char) : ℕ :=
  l.foldl (fun acc c => acc * 10 + digitVal c) 0

/-- Two links joining the same unordered pair of endpoints (the duplicate
test of the generator, as a relation between links). -/
def sameUndirected (a b : Link) : Prop :=
  (a.source = b.source ∧ a.target = b.target) ∨
  (a.source = b.target ∧ a.target = b.source)

instance (a b : Link) : Decidable (sameUndirected a b) := by
  unfold sameUndirected
  infer_instance

/-- The node fields `calculateMetrics` actually reads from its input: the id
and the (never recomputed) betweenness.  Every other field is overwritten
before being used. -/
def proj2 (n : Node) : String × ℚ :=
  (n.id, n.betweenness)

/-- Everything but the `group` field: the state a node carries between the
PageRank phase and the group-assignment phase. -/
def proj6 (n : Node) : String × ℕ × ℕ × ℕ × ℚ × ℚ :=
  (n.id, n.degree, n.inDegree, n.outDegree, n.betweenness, n.pagerank)

/-- The per-round PageRank vector: base `(1-d)/N` for every node, then the
link fold (the inner maps of `rankRound`). -/
def newRanks (ns : List Node) (links : List Link) : List (String × ℚ) :=
  links.foldl (rankStep ns) (ns.map (fun n => (n.id, (1 - damping) / (ns.length : ℚ))))

/-- The per-round rank share sent out along each single edge leaving node
id `u`: `d * rank(u) / outDegree(u)` when `u` resolves and has positive
out-degree, `0` otherwise. -/
def srcShare (ns : List Node) (u : String) : ℚ :=
  match ns.find? (fun n => n.id = u) with
  | some s => if 0 < s.outDegree then damping * s.pagerank / (s.outDegree : ℚ) else 0
  | none => 0

/-- The rank share a single link contributes to its target in one round. -/
def shareOf (ns : List Node) (l : Link) : ℚ :=
  srcShare ns l.source

/-- Total share flowing into node id `v` during one round. -/
def tgtShareSum (ns : List Node) (links : List Link) (v : String) : ℚ :=
  ((links.filter (fun l => l.target = v)).map (shareOf ns)).sum

/-- A link whose two endpoints both resolve in the id list (the degree
loop's `if (sourceNode && targetNode)` guard). -/
def linkResolves (ids : List String) (l : Link) : Prop :=
  l.source ∈ ids ∧ l.target ∈ ids

instance (ids : List String) (l : Link) : Decidable (linkResolves ids l) := by
  unfold linkResolves
  infer_instance

/-- Number of resolving links with source `v`. -/
def outCount (ids : List String) (links : List Link) (v : String) : ℕ :=
  (links.filter (fun l => linkResolves ids l ∧ l.source = v)).length

/-- Number of resolving links with target `v`. -/
def inCount (ids : List String) (links : List Link) (v : String) : ℕ :=
  (links.filter (fun l => linkResolves ids l ∧ l.target = v)).length

/-- Number of links with source `v` (no resolution guard). -/
def srcCount (links : List Link) (v : String) : ℕ :=
  (links.filter (fun l => l.source = v)).length

/-- Number of links with target `v` (no resolution guard). -/
def tgtCount (links : List Link) (v : String) : ℕ :=
  (links.filter (fun l => l.target = v)).length

/-- Rank mass currently held by nodes with positive out-degree. -/
def nondanglingRank (ns : List Node) : ℚ :=
  (ns.map (fun n => if 0 < n.outDegree then n.pagerank else 0)).sum

/-- The structural invariant the rank rounds need: distinct ids, link
endpoints resolving, and `outDegree` caching the per-source link count. -/
def wfRank (ns : List Node) (links : List Link) : Prop :=
  (ns.map Node.id).Nodup ∧
  (∀ l ∈ links, ∃ n ∈ ns, n.id = l.source) ∧
  (∀ l ∈ links, ∃ n ∈ ns, n.id = l.target) ∧
  (∀ n ∈ ns, n.outDegree = srcCount links n.id)

/-- The rank vector described by the spec's words, as an association list
over the model's node ids: rank 0 is `1/N` everywhere; round `k+1` gives
node `v` the value `(1-d)/N` plus, for every edge `(u,v)` with
`outDegree(u) > 0`, the term `d * rank_k(u) / outDegree(u)`, where
`outDegree(u)` is the number of edges leaving `u`. -/
def specRanks (ids : List String) (links : List Link) : ℕ → List (String × ℚ)
  | 0 => ids.map (fun v => (v, 1 / (ids.length : ℚ)))
  | k + 1 =>
    let prev := specRanks ids links k
    ids.map (fun v => (v, (1 - damping) / (ids.length : ℚ) +
      ((links.filter (fun l => l.target = v ∧ 0 < srcCount links l.source)).map
        (fun l => damping * lookupD prev l.source 0 / (srcCount links l.source : ℚ))).sum))

/-- A degenerate shuffle schedule (empty visit order every round). -/
def schedNil : ℕ → List ℕ := fun _ => []

instance : Inhabited Node := ⟨mkNode ""⟩

/-! ## Association-list lemmas -/

theorem lookupD_map_replace_ne [DecidableEq κ] (m : List (κ × ν)) (k k' : κ) (v d : ν)
    (hne : k' ≠ k) :
    lookupD (m.map (fun p => if p.1 = k then (k, v) else p)) k' d = lookupD m k' d := by
  induction m with
  | nil => rfl
  | cons p m ih =>
    by_cases hp : p.1 = k
    · simp only [List.map_cons, if_pos hp, lookupD]
      rw [if_neg (show ¬ ((k, v).1 = k') from fun h => hne h.symm),
        if_neg (show ¬ p.1 = k' from fun h => hne (h.symm.trans hp))]
      exact ih
    · simp only [List.map_cons, if_neg hp, lookupD]
      by_cases hpk' : p.1 = k'
      · simp [hpk']
      · simp only [if_neg hpk']
        exact ih

theorem lookupD_map_replace_eq [DecidableEq κ] (m : List (κ × ν)) (k : κ) (v d : ν)
    (h : ∃ p ∈ m, p.1 = k) :
    lookupD (m.map (fun p => if p.1 = k then (k, v) else p)) k d = v := by
  induction m with
  | nil => simp at h
  | cons p m ih =>
    by_cases hp : p.1 = k
    · simp [List.map_cons, hp, lookupD]
    · simp only [List.map_cons, if_neg hp, lookupD, if_neg hp]
      apply ih
      rcases h with ⟨q, hq, hqk⟩
      rcases List.mem_cons.mp hq with rfl | hqm
      · exact absurd hqk hp
      · exact ⟨q, hqm, hqk⟩

theorem lookupD_not_hasKey [DecidableEq κ] (m : List (κ × ν)) (k : κ) (d : ν)
    (h : ¬ ∃ p ∈ m, p.1 = k) :
    lookupD m k d = d := by
  induction m with
  | nil => rfl
  | cons p m ih =>
    simp only [lookupD]
    by_cases hp : p.1 = k
    · exact absurd ⟨p, List.mem_cons_self _ _, hp⟩ h
    · rw [if_neg hp]
      exact ih (fun ⟨q, hq, hqk⟩ => h ⟨q, List.mem_cons_of_mem _ hq, hqk⟩)

theorem lookupD_append [DecidableEq κ] (m m' : List (κ × ν)) (k : κ) (d : ν) :
    lookupD (m ++ m') k d = lookupD m k (lookupD m' k d) := by
  induction m with
  | nil => rfl
  | cons p m ih =>
    simp only [List.cons_append, lookupD]
    by_cases hp : p.1 = k
    · simp [hp]
    · simp only [if_neg hp]
      exact ih

/-- The fundamental `get`/`set` law of the JS map model. -/
theorem lookupD_jsSet [DecidableEq κ] (m : List (κ × ν)) (k k' : κ) (v d : ν) :
    lookupD (jsSet m k v) k' d = if k' = k then v else lookupD m k' d := by
  unfold jsSet
  by_cases hmem : ∃ p ∈ m, p.1 = k
  · rw [if_pos hmem]
    by_cases hk : k' = k
    · subst hk
      rw [if_pos rfl, lookupD_map_replace_eq _ _ _ _ hmem]
    · rw [if_neg hk, lookupD_map_replace_ne _ _ _ _ _ hk]
  · rw [if_neg hmem, lookupD_append]
    by_cases hk : k' = k
    · subst hk
      rw [if_pos rfl, lookupD_not_hasKey _ _ _ hmem]
      simp [lookupD]
    · rw [if_neg hk, lookupD]
      rw [if_neg (fun h => hk h.symm), lookupD]

/-- Looking up any member id in a constant-valued association map built over
a node list yields the constant. -/
theorem lookupD_map_const (ns : List Node) (c : ℚ) (v : String) (d : ℚ)
    (h : ∃ n ∈ ns, n.id = v) :
    lookupD (ns.map (fun n => (n.id, c))) v d = c := by
  induction ns with
  | nil => simp at h
  | cons n ns ih =>
    simp only [List.map_cons, lookupD]
    by_cases hn : n.id = v
    · simp [hn]
    · rw [if_neg hn]
      apply ih
      rcases h with ⟨m, hm, hmv⟩
      rcases List.mem_cons.mp hm with rfl | hmm
      · exact absurd hmv hn
      · exact ⟨m, hmm, hmv⟩

/-! ## PageRank round: pointwise characterization -/

theorem lookupD_rankStep (ns : List Node) (m : List (String × ℚ)) (l : Link) (v : String) :
    lookupD (rankStep ns m l) v 0 =
      lookupD m v 0 + (if l.target = v then shareOf ns l else 0) := by
  unfold rankStep shareOf srcShare
  cases hf : ns.find? (fun n => n.id = l.source) with
  | none => simp
  | some s =>
    dsimp only
    by_cases hdeg : 0 < s.outDegree
    · rw [if_pos hdeg, if_pos hdeg, lookupD_jsSet]
      by_cases hv : l.target = v
      · rw [if_pos (hv.symm), if_pos hv, hv]
      · rw [if_neg (fun h => hv h.symm), if_neg hv, add_zero]
    · simp [if_neg hdeg]

theorem lookupD_rankFold (ns : List Node) (links : List Link) :
    ∀ (m : List (String × ℚ)) (v : String),
      lookupD (links.foldl (rankStep ns) m) v 0 = lookupD m v 0 + tgtShareSum ns links v := by
  induction links with
  | nil => intro m v; simp [tgtShareSum]
  | cons l rest ih =>
    intro m v
    rw [List.foldl_cons, ih, lookupD_rankStep]
    unfold tgtShareSum
    rw [List.filter_cons]
    by_cases hv : l.target = v
    · rw [if_pos hv, if_pos (show decide (l.target = v) = true by simp [hv])]
      simp only [List.map_cons, List.sum_cons]
      ring
    · rw [if_neg hv, if_neg (show ¬ decide (l.target = v) = true by simp [hv])]
      ring

/-- One PageRank round, pointwise: every node's new rank is
`(1 - d) / N` plus the total share flowing into it. -/
theorem rankRound_eq (ns : List Node) (links : List Link) :
    rankRound ns links = ns.map (fun n =>
      { n with pagerank := (1 - damping) / (ns.length : ℚ) + tgtShareSum ns links n.id }) := by
  unfold rankRound
  apply List.map_congr_left
  intro n hn
  rw [lookupD_rankFold]
  congr 1
  congr 1
  have : lookupD (ns.map (fun n => (n.id, (1 - damping) / (ns.length : ℚ)))) n.id 0 =
      (1 - damping) / (ns.length : ℚ) :=
    lookupD_map_const ns _ n.id 0 ⟨n, hn, rfl⟩
  exact this

/-! ## Degree phase: counting characterization -/

theorem outCount_cons (ids : List String) (l : Link) (rest : List Link) (v : String) :
    outCount ids (l :: rest) v =
      (if linkResolves ids l ∧ l.source = v then 1 else 0) + outCount ids rest v := by
  unfold outCount
  rw [List.filter_cons]
  by_cases h : linkResolves ids l ∧ l.source = v
  · simp [h]
    omega
  · simp [h]

theorem inCount_cons (ids : List String) (l : Link) (rest : List Link) (v : String) :
    inCount ids (l :: rest) v =
      (if linkResolves ids l ∧ l.target = v then 1 else 0) + inCount ids rest v := by
  unfold inCount
  rw [List.filter_cons]
  by_cases h : linkResolves ids l ∧ l.target = v
  · simp [h]
    omega
  · simp [h]

theorem bumpNode_eq (l : Link) (n : Node) :
    bumpNode l n =
      { n with
        degree := n.degree +
          ((if n.id = l.source then 1 else 0) + (if n.id = l.target then 1 else 0)),
        inDegree := n.inDegree + (if n.id = l.target then 1 else 0),
        outDegree := n.outDegree + (if n.id = l.source then 1 else 0) } := by
  unfold bumpNode
  dsimp only
  split_ifs with h1 h2 h3 <;> cases n <;> simp_all

theorem bumpNode_id (l : Link) (n : Node) : (bumpNode l n).id = n.id := by
  rw [bumpNode_eq]

theorem bumpDegrees_pos (ns : List Node) (l : Link)
    (h : (∃ n ∈ ns, n.id = l.source) ∧ (∃ n ∈ ns, n.id = l.target)) :
    bumpDegrees ns l = ns.map (bumpNode l) := by
  unfold bumpDegrees
  rw [if_pos h]

theorem bumpDegrees_neg (ns : List Node) (l : Link)
    (h : ¬ ((∃ n ∈ ns, n.id = l.source) ∧ (∃ n ∈ ns, n.id = l.target))) :
    bumpDegrees ns l = ns := by
  unfold bumpDegrees
  rw [if_neg h]

/-- The degree fold, characterized: every node's counters gain exactly the
counts of resolving links touching it. -/
theorem foldl_bump_eq (links : List Link) : ∀ (ms : List Node),
    links.foldl bumpDegrees ms = ms.map (fun n =>
      { n with
        degree := n.degree +
          (outCount (ms.map Node.id) links n.id + inCount (ms.map Node.id) links n.id),
        inDegree := n.inDegree + inCount (ms.map Node.id) links n.id,
        outDegree := n.outDegree + outCount (ms.map Node.id) links n.id }) := by
  induction links with
  | nil =>
    intro ms
    have h0 : ∀ n : Node,
        ({ n with
            degree := n.degree + (outCount (ms.map Node.id) [] n.id + inCount (ms.map Node.id) [] n.id),
            inDegree := n.inDegree + inCount (ms.map Node.id) [] n.id,
            outDegree := n.outDegree + outCount (ms.map Node.id) [] n.id } : Node) = n :=
      fun n => rfl
    rw [List.foldl_nil, List.map_congr_left (fun n _ => h0 n)]
    simp
  | cons l rest ih =>
    intro ms
    rw [List.foldl_cons]
    by_cases hp : (∃ n ∈ ms, n.id = l.source) ∧ (∃ n ∈ ms, n.id = l.target)
    · rw [bumpDegrees_pos ms l hp, ih, List.map_map]
      have hres : linkResolves (ms.map Node.id) l := by
        constructor
        · exact List.mem_map.mpr ⟨_, hp.1.choose_spec.1, hp.1.choose_spec.2⟩
        · exact List.mem_map.mpr ⟨_, hp.2.choose_spec.1, hp.2.choose_spec.2⟩
      have hids : (ms.map (bumpNode l)).map Node.id = ms.map Node.id := by
        rw [List.map_map]
        exact List.map_congr_left (fun n _ => bumpNode_id l n)
      rw [hids]
      apply List.map_congr_left
      intro n _
      rw [Function.comp_apply, bumpNode_eq]
      have hsrc : (linkResolves (ms.map Node.id) l ∧ l.source = n.id) ↔ n.id = l.source :=
        ⟨fun h => h.2.symm, fun h => ⟨hres, h.symm⟩⟩
      have htgt : (linkResolves (ms.map Node.id) l ∧ l.target = n.id) ↔ n.id = l.target :=
        ⟨fun h => h.2.symm, fun h => ⟨hres, h.symm⟩⟩
      rw [outCount_cons, inCount_cons, if_congr hsrc rfl rfl, if_congr htgt rfl rfl]
      simp only [Node.mk.injEq, true_and, and_true]
      omega
    · rw [bumpDegrees_neg ms l hp, ih]
      apply List.map_congr_left
      intro n _
      have hnres : ¬ linkResolves (ms.map Node.id) l := by
        intro hres
        apply hp
        constructor
        · rcases List.mem_map.mp hres.1 with ⟨m, hm, hmid⟩
          exact ⟨m, hm, hmid⟩
        · rcases List.mem_map.mp hres.2 with ⟨m, hm, hmid⟩
          exact ⟨m, hm, hmid⟩
      rw [outCount_cons, inCount_cons,
        if_neg (fun h => hnres h.1), if_neg (fun h => hnres h.1)]
      simp only [Nat.zero_add]

/-- The degree phase, characterized: after it, every node's counters are
exactly the counts of resolving links touching it (independent of the
previous counter values). -/
theorem applyDegrees_eq (ns : List Node) (links : List Link) :
    applyDegrees ns links = ns.map (fun n =>
      { n with
        degree := outCount (ns.map Node.id) links n.id + inCount (ns.map Node.id) links n.id,
        inDegree := inCount (ns.map Node.id) links n.id,
        outDegree := outCount (ns.map Node.id) links n.id }) := by
  unfold applyDegrees
  rw [foldl_bump_eq]
  have hids : (resetDegrees ns).map Node.id = ns.map Node.id := by
    unfold resetDegrees
    rw [List.map_map]
    rfl
  rw [hids]
  unfold resetDegrees
  rw [List.map_map]
  apply List.map_congr_left
  intro n _
  simp only [Function.comp_apply, Node.mk.injEq, true_and, and_true]
  omega

/-! ## `buildNodes`: coverage and distinctness of the derived node set -/

theorem hasId_append_left (xs ys : List Node) (s : String) (h : hasId xs s) :
    hasId (xs ++ ys) s := by
  rcases h with ⟨n, hn, hns⟩
  exact ⟨n, List.mem_append_left _ hn, hns⟩

/-- `buildStep` only appends new nodes. -/
theorem buildStep_append (acc : List Node) (l : Link) :
    ∃ zs, buildStep acc l = acc ++ zs := by
  unfold buildStep
  by_cases h1 : hasId acc l.source
  · rw [if_pos h1]
    by_cases h2 : hasId acc l.target
    · exact ⟨[], by rw [if_pos h2, List.append_nil]⟩
    · exact ⟨[mkNode l.target], by rw [if_neg h2]⟩
  · rw [if_neg h1]
    by_cases h2 : hasId (acc ++ [mkNode l.source]) l.target
    · exact ⟨[mkNode l.source], by rw [if_pos h2]⟩
    · exact ⟨[mkNode l.source, mkNode l.target], by rw [if_neg h2, List.append_assoc]; rfl⟩

theorem hasId_buildStep_mono (acc : List Node) (l : Link) (s : String)
    (h : hasId acc s) : hasId (buildStep acc l) s := by
  rcases buildStep_append acc l with ⟨zs, hzs⟩
  rw [hzs]
  exact hasId_append_left acc zs s h

theorem hasId_buildStep_src (acc : List Node) (l : Link) :
    hasId (buildStep acc l) l.source := by
  unfold buildStep
  by_cases h1 : hasId acc l.source
  · rw [if_pos h1]
    by_cases h2 : hasId acc l.target
    · rw [if_pos h2]
      exact h1
    · rw [if_neg h2]
      rcases h1 with ⟨n, hn, hns⟩
      exact ⟨n, List.mem_append_left _ hn, hns⟩
  · rw [if_neg h1]
    by_cases h2 : hasId (acc ++ [mkNode l.source]) l.target
    · rw [if_pos h2]
      exact ⟨mkNode l.source, List.mem_append_right _ (List.mem_singleton.mpr rfl), rfl⟩
    · rw [if_neg h2]
      exact ⟨mkNode l.source,
        List.mem_append_left _ (List.mem_append_right _ (List.mem_singleton.mpr rfl)), rfl⟩

theorem hasId_buildStep_tgt (acc : List Node) (l : Link) :
    hasId (buildStep acc l) l.target := by
  unfold buildStep
  by_cases h1 : hasId acc l.source <;>
    simp only [if_pos, if_neg, h1, ite_true, ite_false] <;>
    [skip; skip] <;>
    first
      | (by_cases h2 : hasId acc l.target
         · rw [if_pos h2]
           exact h2
         · rw [if_neg h2]
           exact ⟨mkNode l.target, List.mem_append_right _ (List.mem_singleton.mpr rfl), rfl⟩)
      | (by_cases h2 : hasId (acc ++ [mkNode l.source]) l.target
         · rw [if_pos h2]
           exact h2
         · rw [if_neg h2]
           exact ⟨mkNode l.target, List.mem_append_right _ (List.mem_singleton.mpr rfl), rfl⟩)

theorem hasId_foldl_build_mono (links : List Link) :
    ∀ (acc : List Node) (s : String), hasId acc s → hasId (links.foldl buildStep acc) s := by
  induction links with
  | nil => exact fun acc s h => h
  | cons l rest ih =>
    intro acc s h
    rw [List.foldl_cons]
    exact ih _ s (hasId_buildStep_mono acc l s h)

/-- Every endpoint of every link is present in the derived node set. -/
theorem buildNodes_covers (links : List Link) :
    ∀ l ∈ links, hasId (buildNodes links) l.source ∧ hasId (buildNodes links) l.target := by
  unfold buildNodes
  suffices h : ∀ (acc : List Node), ∀ l ∈ links,
      hasId (links.foldl buildStep acc) l.source ∧ hasId (links.foldl buildStep acc) l.target by
    exact h []
  induction links with
  | nil => intro acc l hl; simp at hl
  | cons l' rest ih =>
    intro acc l hl
    rw [List.foldl_cons]
    rcases List.mem_cons.mp hl with rfl | hml
    · exact ⟨hasId_foldl_build_mono rest _ _ (hasId_buildStep_src acc l),
        hasId_foldl_build_mono rest _ _ (hasId_buildStep_tgt acc l)⟩
    · exact ih _ l hml

/-- Every link of a built graph resolves in the derived id list. -/
theorem buildNodes_resolves (links : List Link) :
    ∀ l ∈ links, linkResolves ((buildNodes links).map Node.id) l := by
  intro l hl
  rcases buildNodes_covers links l hl with ⟨⟨n, hn, hns⟩, ⟨m, hm, hms⟩⟩
  exact ⟨List.mem_map.mpr ⟨n, hn, hns⟩, List.mem_map.mpr ⟨m, hm, hms⟩⟩

theorem buildStep_nodup (acc : List Node) (l : Link)
    (h : (acc.map Node.id).Nodup) : ((buildStep acc l).map Node.id).Nodup := by
  unfold buildStep
  have key : ∀ (ns : List Node) (s : String), (ns.map Node.id).Nodup →
      ((if hasId ns s then ns else ns ++ [mkNode s]).map Node.id).Nodup := by
    intro ns s hns
    by_cases hmem : hasId ns s
    · rw [if_pos hmem]
      exact hns
    · rw [if_neg hmem, List.map_append]
      simp only [List.map_cons, List.map_nil]
      rw [List.nodup_append]
      refine ⟨hns, List.nodup_singleton _, ?_⟩
      intro x hx hxs
      rcases List.mem_map.mp hx with ⟨n, hn, hns'⟩
      rcases List.mem_singleton.mp hxs with rfl
      exact hmem ⟨n, hn, by simpa [mkNode] using hns'⟩
  exact key _ l.target (key acc l.source h)

/-- The derived node set has pairwise-distinct ids. -/
theorem buildNodes_nodup (links : List Link) : ((buildNodes links).map Node.id).Nodup := by
  unfold buildNodes
  suffices h : ∀ (acc : List Node), (acc.map Node.id).Nodup →
      ((links.foldl buildStep acc).map Node.id).Nodup by
    exact h [] (by simp)
  induction links with
  | nil => exact fun acc h => h
  | cons l rest ih =>
    intro acc h
    rw [List.foldl_cons]
    exact ih _ (buildStep_nodup acc l h)

/-! ## Field-preservation machinery for the phase pipeline -/

theorem outCount_eq_srcCount (ids : List String) (links : List Link) (v : String)
    (h : ∀ l ∈ links, linkResolves ids l) : outCount ids links v = srcCount links v := by
  unfold outCount srcCount
  congr 1
  apply List.filter_congr
  intro l hl
  simp [h l hl]

theorem inCount_eq_tgtCount (ids : List String) (links : List Link) (v : String)
    (h : ∀ l ∈ links, linkResolves ids l) : inCount ids links v = tgtCount links v := by
  unfold inCount tgtCount
  congr 1
  apply List.filter_congr
  intro l hl
  simp [h l hl]

theorem initRanks_map_proj {β : Type} (proj : Node → β)
    (hproj : ∀ (n : Node) (q : ℚ), proj { n with pagerank := q } = proj n)
    (ns : List Node) : (initRanks ns).map proj = ns.map proj := by
  unfold initRanks
  rw [List.map_map]
  exact List.map_congr_left (fun n _ => hproj n _)

theorem rankRound_map_proj {β : Type} (proj : Node → β)
    (hproj : ∀ (n : Node) (q : ℚ), proj { n with pagerank := q } = proj n)
    (ns : List Node) (links : List Link) :
    (rankRound ns links).map proj = ns.map proj := by
  rw [rankRound_eq, List.map_map]
  exact List.map_congr_left (fun n _ => hproj n _)

theorem rankIter_map_proj {β : Type} (proj : Node → β)
    (hproj : ∀ (n : Node) (q : ℚ), proj { n with pagerank := q } = proj n)
    (k : ℕ) : ∀ (ns : List Node) (links : List Link),
      (rankIter k ns links).map proj = ns.map proj := by
  induction k with
  | zero => intro ns links; rfl
  | succ k ih =>
    intro ns links
    show (rankIter k (rankRound ns links) links).map proj = ns.map proj
    rw [ih, rankRound_map_proj proj hproj]

theorem assignGroups_map_proj {β : Type} (proj : Node → β)
    (hproj : ∀ (n : Node) (g : Int), proj { n with group := g } = proj n)
    (ns : List Node) (labels : List (String × String)) :
    (assignGroups ns labels).map proj = ns.map proj := by
  unfold assignGroups
  rw [List.map_map]
  exact List.map_congr_left (fun n _ => hproj n _)

/-- The node output of `calculateMetrics` is the `updatedNodes` pipeline. -/
theorem calculateMetrics_fst (data : GraphData) (shuffle : ℕ → List ℕ) :
    (calculateMetrics data shuffle).1 = updatedNodes data shuffle := by
  rw [calculateMetrics]

/-- The metrics output of `calculateMetrics` is the `networkSummary`
record. -/
theorem calculateMetrics_snd (data : GraphData) (shuffle : ℕ → List ℕ) :
    (calculateMetrics data shuffle).2 = networkSummary data shuffle := by
  rw [calculateMetrics]

/-- The id sequence is unchanged by the whole pipeline. -/
theorem calculateMetrics_ids (data : GraphData) (shuffle : ℕ → List ℕ) :
    ((calculateMetrics data shuffle).1).map Node.id = data.nodes.map Node.id := by
  rw [calculateMetrics_fst]
  unfold updatedNodes rankedNodes
  rw [assignGroups_map_proj Node.id (fun n g => rfl),
    rankIter_map_proj Node.id (fun n q => rfl),
    initRanks_map_proj Node.id (fun n q => rfl), applyDegrees_eq, List.map_map]
  exact List.map_congr_left (fun n _ => rfl)

/-- The degree counters computed by the pipeline, as a projection
equality: they are exactly the resolving-link counts, and survive the
later phases untouched. -/
theorem calculateMetrics_degrees_proj (data : GraphData) (shuffle : ℕ → List ℕ) :
    ((calculateMetrics data shuffle).1).map
        (fun n => (n.id, n.degree, n.inDegree, n.outDegree)) =
      data.nodes.map (fun n => (n.id,
        outCount (data.nodes.map Node.id) data.links n.id +
          inCount (data.nodes.map Node.id) data.links n.id,
        inCount (data.nodes.map Node.id) data.links n.id,
        outCount (data.nodes.map Node.id) data.links n.id)) := by
  rw [calculateMetrics_fst]
  unfold updatedNodes rankedNodes
  rw [assignGroups_map_proj (fun n => (n.id, n.degree, n.inDegree, n.outDegree)) (fun n g => rfl),
    rankIter_map_proj (fun n => (n.id, n.degree, n.inDegree, n.outDegree)) (fun n q => rfl),
    initRanks_map_proj (fun n => (n.id, n.degree, n.inDegree, n.outDegree)) (fun n q => rfl),
    applyDegrees_eq, List.map_map]
  exact List.map_congr_left (fun n _ => rfl)

theorem srcCount_append (links links' : List Link) (v : String) :
    srcCount (links ++ links') v = srcCount links v + srcCount links' v := by
  unfold srcCount
  rw [List.filter_append, List.length_append]

theorem tgtCount_append (links links' : List Link) (v : String) :
    tgtCount (links ++ links') v = tgtCount links v + tgtCount links' v := by
  unfold tgtCount
  rw [List.filter_append, List.length_append]

/-- Per-node degree facts after the pipeline, for any input graph data. -/
theorem calcMetrics_degree_facts (data : GraphData) (sched : ℕ → List ℕ) (n : Node)
    (hn : n ∈ (calculateMetrics data sched).1) :
    n.degree = n.inDegree + n.outDegree ∧
    n.inDegree = inCount (data.nodes.map Node.id) data.links n.id ∧
    n.outDegree = outCount (data.nodes.map Node.id) data.links n.id := by
  have hproj := calculateMetrics_degrees_proj data sched
  have hmem : (n.id, n.degree, n.inDegree, n.outDegree) ∈
      ((calculateMetrics data sched).1).map
        (fun n => (n.id, n.degree, n.inDegree, n.outDegree)) :=
    List.mem_map.mpr ⟨n, hn, rfl⟩
  rw [hproj] at hmem
  rcases List.mem_map.mp hmem with ⟨m, _, hmeq⟩
  simp only [Prod.mk.injEq] at hmeq
  obtain ⟨hid, hdeg, hin, hout⟩ := hmeq
  rw [hid] at hdeg hin hout
  exact ⟨by omega, hin.symm, hout.symm⟩

/-! ## Rank-mass accounting for one PageRank round -/

theorem sum_map_add_split {α : Type} (l : List α) (f g : α → ℚ) :
    (l.map (fun x => f x + g x)).sum = (l.map f).sum + (l.map g).sum := by
  induction l with
  | nil => simp
  | cons x l ih =>
    simp only [List.map_cons, List.sum_cons, ih]
    ring

theorem sum_map_mul_left_q {α : Type} (l : List α) (c : ℚ) (f : α → ℚ) :
    (l.map (fun x => c * f x)).sum = c * (l.map f).sum := by
  induction l with
  | nil => simp
  | cons x l ih =>
    simp only [List.map_cons, List.sum_cons, ih]
    ring

theorem sum_map_const_q {α : Type} (l : List α) (c : ℚ) :
    (l.map (fun _ => c)).sum = (l.length : ℚ) * c := by
  induction l with
  | nil => simp
  | cons x l ih =>
    simp only [List.map_cons, List.sum_cons, ih, List.length_cons]
    push_cast
    ring

theorem sum_ite_id_zero (ns : List Node) (v : String) (q : ℚ)
    (h : ∀ n ∈ ns, v ≠ n.id) :
    (ns.map (fun n => if v = n.id then q else 0)).sum = 0 := by
  induction ns with
  | nil => simp
  | cons n ns ih =>
    simp only [List.map_cons, List.sum_cons]
    rw [if_neg (h n (List.mem_cons_self _ _)), ih (fun m hm => h m (List.mem_cons_of_mem _ hm))]
    ring

theorem sum_ite_id_single (ns : List Node) (v : String) (q : ℚ)
    (hnd : (ns.map Node.id).Nodup) (hv : ∃ n ∈ ns, n.id = v) :
    (ns.map (fun n => if v = n.id then q else 0)).sum = q := by
  induction ns with
  | nil => simp at hv
  | cons n ns ih =>
    simp only [List.map_cons, List.sum_cons]
    simp only [List.map_cons, List.nodup_cons] at hnd
    by_cases hn : v = n.id
    · rw [if_pos hn, sum_ite_id_zero ns v q, add_zero]
      intro m hm hvm
      exact hnd.1 (List.mem_map.mpr ⟨m, hm, hvm.symm.trans hn⟩)
    · rw [if_neg hn, zero_add]
      apply ih hnd.2
      rcases hv with ⟨m, hm, hmv⟩
      rcases List.mem_cons.mp hm with rfl | hmm
      · exact absurd hmv.symm hn
      · exact ⟨m, hmm, hmv⟩

theorem tgtShareSum_cons (ns : List Node) (l : Link) (rest : List Link) (v : String) :
    tgtShareSum ns (l :: rest) v =
      (if l.target = v then shareOf ns l else 0) + tgtShareSum ns rest v := by
  unfold tgtShareSum
  rw [List.filter_cons]
  by_cases hv : l.target = v
  · rw [if_pos hv, if_pos (show decide (l.target = v) = true by simp [hv]), List.map_cons,
      List.sum_cons]
  · rw [if_neg hv, if_neg (show ¬ decide (l.target = v) = true by simp [hv]), zero_add]

/-- Summing the incoming shares over all nodes regroups to a sum over the
links (each link's target is a unique node). -/
theorem sum_tgtShareSum_eq (ns : List Node) (links : List Link)
    (hnd : (ns.map Node.id).Nodup)
    (hcovT : ∀ l ∈ links, ∃ n ∈ ns, n.id = l.target) :
    (ns.map (fun n => tgtShareSum ns links n.id)).sum = (links.map (shareOf ns)).sum := by
  induction links with
  | nil =>
    have h0 : ∀ n ∈ ns, tgtShareSum ns [] n.id = 0 := fun n _ => rfl
    rw [List.map_congr_left h0]
    simp
  | cons l rest ih =>
    have hsplit : ∀ n ∈ ns, tgtShareSum ns (l :: rest) n.id =
        (if l.target = n.id then shareOf ns l else 0) + tgtShareSum ns rest n.id :=
      fun n _ => tgtShareSum_cons ns l rest n.id
    rw [List.map_congr_left hsplit, sum_map_add_split,
      sum_ite_id_single ns l.target (shareOf ns l) hnd (hcovT l (List.mem_cons_self _ _)),
      ih (fun l' hl' => hcovT l' (List.mem_cons_of_mem _ hl')), List.map_cons, List.sum_cons]

theorem srcCount_cons (l : Link) (rest : List Link) (v : String) :
    srcCount (l :: rest) v = (if l.source = v then 1 else 0) + srcCount rest v := by
  unfold srcCount
  rw [List.filter_cons]
  by_cases h : l.source = v
  · rw [if_pos h, if_pos (show decide (l.source = v) = true by simp [h]), List.length_cons]
    omega
  · rw [if_neg h, if_neg (show ¬ decide (l.source = v) = true by simp [h]), zero_add]

/-- Summing the link shares regroups by source node: each source `u`
contributes `srcCount(u)` copies of its per-edge share. -/
theorem sum_shares_by_source (ns : List Node) (links : List Link)
    (hnd : (ns.map Node.id).Nodup)
    (hcovS : ∀ l ∈ links, ∃ n ∈ ns, n.id = l.source) :
    (links.map (shareOf ns)).sum =
      (ns.map (fun n => (srcCount links n.id : ℚ) * srcShare ns n.id)).sum := by
  induction links with
  | nil =>
    have h0 : ∀ n ∈ ns, ((srcCount [] n.id : ℕ) : ℚ) * srcShare ns n.id = 0 :=
      fun n _ => by simp [srcCount]
    rw [List.map_congr_left h0]
    simp
  | cons l rest ih =>
    have hsplit : ∀ n ∈ ns, ((srcCount (l :: rest) n.id : ℕ) : ℚ) * srcShare ns n.id =
        (if l.source = n.id then srcShare ns l.source else 0) +
          ((srcCount rest n.id : ℕ) : ℚ) * srcShare ns n.id := by
      intro n _
      rw [srcCount_cons]
      push_cast
      rw [add_mul]
      congr 1
      by_cases h : l.source = n.id
      · rw [if_pos h, if_pos h, one_mul, h]
      · rw [if_neg h, if_neg h, zero_mul]
    rw [List.map_congr_left hsplit, sum_map_add_split,
      sum_ite_id_single ns l.source (srcShare ns l.source) hnd (hcovS l (List.mem_cons_self _ _)),
      ← ih (fun l' hl' => hcovS l' (List.mem_cons_of_mem _ hl')), List.map_cons, List.sum_cons]
    rfl

theorem find?_self_of_nodup (ns : List Node) (n : Node)
    (hnd : (ns.map Node.id).Nodup) (hn : n ∈ ns) :
    ns.find? (fun m => m.id = n.id) = some n := by
  induction ns with
  | nil => simp at hn
  | cons m ns ih =>
    simp only [List.map_cons, List.nodup_cons] at hnd
    rcases List.mem_cons.mp hn with rfl | hmem
    · rw [List.find?_cons_of_pos]
      simp
    · rw [List.find?_cons_of_neg, ih hnd.2 hmem]
      simp only [decide_eq_true_eq]
      intro hid
      exact hnd.1 (hid ▸ List.mem_map.mpr ⟨n, hmem, rfl⟩)

theorem srcShare_self (ns : List Node) (n : Node)
    (hnd : (ns.map Node.id).Nodup) (hn : n ∈ ns) :
    srcShare ns n.id =
      if 0 < n.outDegree then damping * n.pagerank / (n.outDegree : ℚ) else 0 := by
  unfold srcShare
  rw [find?_self_of_nodup ns n hnd hn]

/-- One round's total outgoing mass: with `outDegree = srcCount`, the
per-source contribution collapses to `d * rank` on non-dangling nodes. -/
theorem totalRank_rankRound (ns : List Node) (links : List Link)
    (hne : ns ≠ [])
    (hnd : (ns.map Node.id).Nodup)
    (hcovS : ∀ l ∈ links, ∃ n ∈ ns, n.id = l.source)
    (hcovT : ∀ l ∈ links, ∃ n ∈ ns, n.id = l.target)
    (hout : ∀ n ∈ ns, n.outDegree = srcCount links n.id) :
    totalRank (rankRound ns links) = (1 - damping) + damping * nondanglingRank ns := by
  rw [rankRound_eq]
  unfold totalRank
  rw [List.map_map]
  have hpt : ∀ n ∈ ns,
      ((fun n => n.pagerank) ∘ fun n =>
        { n with pagerank := (1 - damping) / (ns.length : ℚ) + tgtShareSum ns links n.id }) n =
      (1 - damping) / (ns.length : ℚ) + tgtShareSum ns links n.id :=
    fun n _ => rfl
  rw [List.map_congr_left hpt, sum_map_add_split, sum_map_const_q,
    sum_tgtShareSum_eq ns links hnd hcovT, sum_shares_by_source ns links hnd hcovS]
  have hN : (ns.length : ℚ) ≠ 0 := by
    have : ns.length ≠ 0 := fun h => hne (List.length_eq_zero.mp h)
    exact_mod_cast this
  have hconst : (ns.length : ℚ) * ((1 - damping) / (ns.length : ℚ)) = 1 - damping := by
    field_simp
  have hterm : ∀ n ∈ ns, ((srcCount links n.id : ℕ) : ℚ) * srcShare ns n.id =
      damping * (if 0 < n.outDegree then n.pagerank else 0) := by
    intro n hn
    rw [srcShare_self ns n hnd hn, ← hout n hn]
    by_cases h : 0 < n.outDegree
    · rw [if_pos h, if_pos h]
      have hZ : (n.outDegree : ℚ) ≠ 0 := by
        exact_mod_cast Nat.pos_iff_ne_zero.mp h
      field_simp
    · have h0 : n.outDegree = 0 := by omega
      rw [if_neg h, if_neg h, h0]
      simp
  rw [hconst, List.map_congr_left hterm, sum_map_mul_left_q]
  rfl

/-! ## PageRank invariants across the 20 rounds -/

theorem exists_of_map_eq_map {β : Type} (proj : Node → β) (f : Node → β) (xs ys : List Node)
    (h : xs.map proj = ys.map f) (x : Node) (hx : x ∈ xs) : ∃ y ∈ ys, proj x = f y := by
  have hm : proj x ∈ ys.map f := by
    rw [← h]
    exact List.mem_map.mpr ⟨x, hx, rfl⟩
  rcases List.mem_map.mp hm with ⟨y, hy, hyeq⟩
  exact ⟨y, hy, hyeq.symm⟩

theorem damping_nonneg : (0 : ℚ) ≤ damping := by norm_num [damping]

theorem damping_lt_one : damping < 1 := by norm_num [damping]

theorem srcShare_nonneg (ns : List Node) (h : ∀ n ∈ ns, 0 ≤ n.pagerank) (u : String) :
    0 ≤ srcShare ns u := by
  unfold srcShare
  cases hf : ns.find? (fun n => n.id = u) with
  | none => exact le_refl 0
  | some s =>
    dsimp only
    by_cases hdeg : 0 < s.outDegree
    · rw [if_pos hdeg]
      have hs : s ∈ ns := List.mem_of_find?_eq_some hf
      apply div_nonneg
      · exact mul_nonneg damping_nonneg (h s hs)
      · exact_mod_cast Nat.zero_le _
    · rw [if_neg hdeg]

theorem tgtShareSum_nonneg (ns : List Node) (links : List Link)
    (h : ∀ n ∈ ns, 0 ≤ n.pagerank) (v : String) : 0 ≤ tgtShareSum ns links v := by
  unfold tgtShareSum
  apply List.sum_nonneg
  intro x hx
  rcases List.mem_map.mp hx with ⟨l, _, rfl⟩
  exact srcShare_nonneg ns h l.source

/-- After a round, every rank is at least the teleport mass `(1-d)/N`. -/
theorem rankRound_lower (ns : List Node) (links : List Link)
    (h : ∀ n ∈ ns, 0 ≤ n.pagerank) :
    ∀ n' ∈ rankRound ns links, (1 - damping) / (ns.length : ℚ) ≤ n'.pagerank := by
  intro n' hn'
  rw [rankRound_eq] at hn'
  rcases List.mem_map.mp hn' with ⟨n, hn, rfl⟩
  have := tgtShareSum_nonneg ns links h n.id
  dsimp only
  linarith

theorem rankRound_pos (ns : List Node) (links : List Link)
    (hne : ns ≠ []) (h : ∀ n ∈ ns, 0 < n.pagerank) :
    ∀ n' ∈ rankRound ns links, 0 < n'.pagerank := by
  intro n' hn'
  have hlow := rankRound_lower ns links (fun n hn => le_of_lt (h n hn)) n' hn'
  have hNpos : (0 : ℚ) < (ns.length : ℚ) := by
    have : 0 < ns.length := List.length_pos.mpr hne
    exact_mod_cast this
  have hconst : (0 : ℚ) < (1 - damping) / (ns.length : ℚ) := by
    apply div_pos
    · linarith [damping_lt_one]
    · exact hNpos
  linarith

theorem rankRound_length (ns : List Node) (links : List Link) :
    (rankRound ns links).length = ns.length := by
  rw [rankRound_eq, List.length_map]

theorem rankRound_ne_nil (ns : List Node) (links : List Link) (hne : ns ≠ []) :
    rankRound ns links ≠ [] := by
  intro h
  apply hne
  have := rankRound_length ns links
  rw [h] at this
  exact List.length_eq_zero.mp this.symm

theorem wfRank_rankRound (ns : List Node) (links : List Link)
    (h : wfRank ns links) : wfRank (rankRound ns links) links := by
  obtain ⟨hnd, hcovS, hcovT, hout⟩ := h
  have hids : (rankRound ns links).map Node.id = ns.map Node.id :=
    rankRound_map_proj Node.id (fun n q => rfl) ns links
  refine ⟨hids ▸ hnd, ?_, ?_, ?_⟩
  · intro l hl
    rcases hcovS l hl with ⟨n, hn, hid⟩
    have : n.id ∈ (rankRound ns links).map Node.id := by
      rw [hids]
      exact List.mem_map.mpr ⟨n, hn, rfl⟩
    rcases List.mem_map.mp this with ⟨m, hm, hmid⟩
    exact ⟨m, hm, hmid.trans hid⟩
  · intro l hl
    rcases hcovT l hl with ⟨n, hn, hid⟩
    have : n.id ∈ (rankRound ns links).map Node.id := by
      rw [hids]
      exact List.mem_map.mpr ⟨n, hn, rfl⟩
    rcases List.mem_map.mp this with ⟨m, hm, hmid⟩
    exact ⟨m, hm, hmid.trans hid⟩
  · intro n' hn'
    have hproj : (rankRound ns links).map (fun n => (n.id, n.outDegree)) =
        ns.map (fun n => (n.id, n.outDegree)) :=
      rankRound_map_proj (fun n => (n.id, n.outDegree)) (fun n q => rfl) ns links
    rcases exists_of_map_eq_map (fun n => (n.id, n.outDegree)) (fun n => (n.id, n.outDegree))
      _ _ hproj n' hn' with ⟨m, hm, hmeq⟩
    simp only [Prod.mk.injEq] at hmeq
    rw [hmeq.2, hout m hm, hmeq.1]

/-- Rank stays in place: `rankIter (k+1)` is one more round after
`rankIter k`. -/
theorem rankIter_succ_outer (k : ℕ) : ∀ (ns : List Node) (links : List Link),
    rankIter (k + 1) ns links = rankRound (rankIter k ns links) links := by
  induction k with
  | zero => intro ns links; rfl
  | succ k ih =>
    intro ns links
    show rankIter (k + 1) (rankRound ns links) links = _
    rw [ih (rankRound ns links) links]
    rfl

theorem wfRank_rankIter (k : ℕ) : ∀ (ns : List Node) (links : List Link),
    wfRank ns links → wfRank (rankIter k ns links) links := by
  induction k with
  | zero => exact fun ns links h => h
  | succ k ih =>
    intro ns links h
    rw [rankIter_succ_outer]
    exact wfRank_rankRound _ _ (ih ns links h)

theorem rankIter_ne_nil (k : ℕ) : ∀ (ns : List Node) (links : List Link),
    ns ≠ [] → rankIter k ns links ≠ [] := by
  induction k with
  | zero => exact fun ns links h => h
  | succ k ih =>
    intro ns links h
    rw [rankIter_succ_outer]
    exact rankRound_ne_nil _ _ (ih ns links h)

theorem rankIter_pos (k : ℕ) : ∀ (ns : List Node) (links : List Link),
    ns ≠ [] → (∀ n ∈ ns, 0 < n.pagerank) →
    ∀ n' ∈ rankIter k ns links, 0 < n'.pagerank := by
  induction k with
  | zero => exact fun ns links _ h => h
  | succ k ih =>
    intro ns links hne h
    rw [rankIter_succ_outer]
    exact rankRound_pos _ links (rankIter_ne_nil k ns links hne) (ih ns links hne h)

theorem nondangling_le_total (ns : List Node)
    (hnn : ∀ n ∈ ns, 0 ≤ n.pagerank) : nondanglingRank ns ≤ totalRank ns := by
  unfold nondanglingRank totalRank
  apply List.sum_le_sum
  intro n hn
  by_cases h : 0 < n.outDegree
  · rw [if_pos h]
  · rw [if_neg h]
    exact hnn n hn

theorem nondangling_le_total_sub (ns : List Node)
    (hnn : ∀ n ∈ ns, 0 ≤ n.pagerank) (u : Node) (hu : u ∈ ns) (hud : u.outDegree = 0) :
    nondanglingRank ns ≤ totalRank ns - u.pagerank := by
  induction ns with
  | nil => simp at hu
  | cons n ns ih =>
    unfold nondanglingRank totalRank
    simp only [List.map_cons, List.sum_cons]
    rcases List.mem_cons.mp hu with rfl | hmem
    · rw [if_neg (by omega : ¬ 0 < u.outDegree)]
      have := nondangling_le_total ns (fun m hm => hnn m (List.mem_cons_of_mem _ hm))
      unfold nondanglingRank totalRank at this
      linarith
    · have hle : (if 0 < n.outDegree then n.pagerank else 0) ≤ n.pagerank := by
        by_cases h : 0 < n.outDegree
        · rw [if_pos h]
        · rw [if_neg h]
          exact hnn n (List.mem_cons_self _ _)
      have := ih (fun m hm => hnn m (List.mem_cons_of_mem _ hm)) hmem
      unfold nondanglingRank totalRank at this
      linarith

/-- With no dangling node, each round conserves the unit rank mass
exactly. -/
theorem rankIter_total_no_dangling (links : List Link) (k : ℕ) :
    ∀ (ns : List Node), wfRank ns links → ns ≠ [] →
    (∀ n ∈ ns, 0 < n.outDegree) → totalRank ns = 1 →
    totalRank (rankIter k ns links) = 1 := by
  induction k with
  | zero => exact fun ns _ _ _ h => h
  | succ k ih =>
    intro ns hwf hne hdeg htot
    rw [rankIter_succ_outer]
    obtain ⟨hnd, hcovS, hcovT, hout⟩ := wfRank_rankIter k ns links hwf
    have hne' := rankIter_ne_nil k ns links hne
    have hdeg' : ∀ n ∈ rankIter k ns links, 0 < n.outDegree := by
      intro n' hn'
      have hproj : (rankIter k ns links).map (fun n => n.outDegree) =
          ns.map (fun n => n.outDegree) :=
        rankIter_map_proj (fun n => n.outDegree) (fun n q => rfl) k ns links
      rcases exists_of_map_eq_map (fun n => n.outDegree) (fun n => n.outDegree)
        _ _ hproj n' hn' with ⟨m, hm, hmeq⟩
      rw [hmeq]
      exact hdeg m hm
    rw [totalRank_rankRound _ links hne' hnd hcovS hcovT hout]
    have hnd_eq : nondanglingRank (rankIter k ns links) = totalRank (rankIter k ns links) := by
      unfold nondanglingRank totalRank
      congr 1
      apply List.map_congr_left
      intro n hn
      rw [if_pos (hdeg' n hn)]
    rw [hnd_eq, ih ns hwf hne hdeg htot]
    ring

theorem rankRound_nonneg (ns : List Node) (links : List Link)
    (h : ∀ n ∈ ns, 0 ≤ n.pagerank) :
    ∀ n' ∈ rankRound ns links, 0 ≤ n'.pagerank := by
  intro n' hn'
  have hlow := rankRound_lower ns links h n' hn'
  have hconst : (0 : ℚ) ≤ (1 - damping) / (ns.length : ℚ) :=
    div_nonneg (by linarith [damping_lt_one]) (Nat.cast_nonneg _)
  linarith

theorem rankIter_nonneg (k : ℕ) : ∀ (ns : List Node) (links : List Link),
    (∀ n ∈ ns, 0 ≤ n.pagerank) → ∀ n' ∈ rankIter k ns links, 0 ≤ n'.pagerank := by
  induction k with
  | zero => exact fun ns links h => h
  | succ k ih =>
    intro ns links h
    rw [rankIter_succ_outer]
    exact rankRound_nonneg _ links (ih ns links h)

/-- Rank mass never exceeds 1. -/
theorem rankIter_total_le_one (links : List Link) (k : ℕ) :
    ∀ (ns : List Node), wfRank ns links → ns ≠ [] →
    (∀ n ∈ ns, 0 ≤ n.pagerank) → totalRank ns ≤ 1 →
    totalRank (rankIter k ns links) ≤ 1 := by
  induction k with
  | zero => exact fun ns _ _ _ h => h
  | succ k ih =>
    intro ns hwf hne hnn htot
    rw [rankIter_succ_outer]
    obtain ⟨hnd, hcovS, hcovT, hout⟩ := wfRank_rankIter k ns links hwf
    have hne' := rankIter_ne_nil k ns links hne
    have hnn' := rankIter_nonneg k ns links hnn
    rw [totalRank_rankRound _ links hne' hnd hcovS hcovT hout]
    have h1 : nondanglingRank (rankIter k ns links) ≤ totalRank (rankIter k ns links) :=
      nondangling_le_total _ hnn'
    have h2 : totalRank (rankIter k ns links) ≤ 1 := ih ns hwf hne hnn htot
    have hnd1 : nondanglingRank (rankIter k ns links) ≤ 1 := le_trans h1 h2
    have hkey : 0 ≤ damping - damping * nondanglingRank (rankIter k ns links) := by
      nlinarith [mul_nonneg damping_nonneg (sub_nonneg.mpr hnd1)]
    linarith

/-- With a dangling node present, every round after the first strictly
loses rank mass below 1. -/
theorem rankIter_total_lt_one (links : List Link) (k : ℕ) (ns : List Node)
    (hwf : wfRank ns links) (hne : ns ≠ [])
    (hpos : ∀ n ∈ ns, 0 < n.pagerank) (htot : totalRank ns ≤ 1)
    (hdang : ∃ u ∈ ns, u.outDegree = 0) :
    totalRank (rankIter (k + 1) ns links) < 1 := by
  rw [rankIter_succ_outer]
  obtain ⟨hnd, hcovS, hcovT, hout⟩ := wfRank_rankIter k ns links hwf
  have hne' := rankIter_ne_nil k ns links hne
  have hpos' := rankIter_pos k ns links hne hpos
  have hnn' : ∀ n ∈ rankIter k ns links, 0 ≤ n.pagerank :=
    fun n hn => le_of_lt (hpos' n hn)
  rw [totalRank_rankRound _ links hne' hnd hcovS hcovT hout]
  -- transfer the dangling witness through the rounds
  rcases hdang with ⟨u, hu, hud⟩
  have hproj : ns.map (fun n => n.outDegree) = (rankIter k ns links).map (fun n => n.outDegree) :=
    (rankIter_map_proj (fun n => n.outDegree) (fun n q => rfl) k ns links).symm
  rcases exists_of_map_eq_map (fun n => n.outDegree) (fun n => n.outDegree)
    _ _ hproj u hu with ⟨m, hm, hmeq⟩
  have hmd : m.outDegree = 0 := by omega
  have hgap := nondangling_le_total_sub (rankIter k ns links) hnn' m hm hmd
  have hS := rankIter_total_le_one links k ns hwf hne
    (fun n hn => le_of_lt (hpos n hn)) htot
  have hmp : 0 < m.pagerank := hpos' m hm
  have hdpos : 0 < damping := by norm_num [damping]
  nlinarith [mul_pos hdpos hmp,
    mul_le_mul_of_nonneg_left hgap (le_of_lt hdpos),
    mul_le_mul_of_nonneg_left hS (le_of_lt hdpos)]

/-! ## The pipeline start state on a built graph -/

theorem applyDegrees_ids (ns : List Node) (links : List Link) :
    (applyDegrees ns links).map Node.id = ns.map Node.id := by
  rw [applyDegrees_eq, List.map_map]
  exact List.map_congr_left (fun n _ => rfl)

theorem initRanks_ids (ns : List Node) :
    (initRanks ns).map Node.id = ns.map Node.id :=
  initRanks_map_proj Node.id (fun n q => rfl) ns

theorem buildStart_idout (links : List Link) :
    (initRanks (applyDegrees (buildNodes links) links)).map (fun n => (n.id, n.outDegree)) =
      (buildNodes links).map (fun n =>
        (n.id, outCount ((buildNodes links).map Node.id) links n.id)) := by
  rw [initRanks_map_proj (fun n => (n.id, n.outDegree)) (fun n q => rfl),
    applyDegrees_eq, List.map_map]
  exact List.map_congr_left (fun n _ => rfl)

theorem buildStart_wf (links : List Link) :
    wfRank (initRanks (applyDegrees (buildNodes links) links)) links := by
  have hids : (initRanks (applyDegrees (buildNodes links) links)).map Node.id =
      (buildNodes links).map Node.id := by
    rw [initRanks_ids, applyDegrees_ids]
  refine ⟨hids ▸ buildNodes_nodup links, ?_, ?_, ?_⟩
  · intro l hl
    have hs : l.source ∈ (initRanks (applyDegrees (buildNodes links) links)).map Node.id := by
      rw [hids]
      rcases (buildNodes_covers links l hl).1 with ⟨n, hn, hid⟩
      exact List.mem_map.mpr ⟨n, hn, hid⟩
    rcases List.mem_map.mp hs with ⟨n, hn, hid⟩
    exact ⟨n, hn, hid⟩
  · intro l hl
    have ht : l.target ∈ (initRanks (applyDegrees (buildNodes links) links)).map Node.id := by
      rw [hids]
      rcases (buildNodes_covers links l hl).2 with ⟨n, hn, hid⟩
      exact List.mem_map.mpr ⟨n, hn, hid⟩
    rcases List.mem_map.mp ht with ⟨n, hn, hid⟩
    exact ⟨n, hn, hid⟩
  · intro n hn
    rcases exists_of_map_eq_map (fun n => (n.id, n.outDegree))
      (fun n => (n.id, outCount ((buildNodes links).map Node.id) links n.id))
      _ _ (buildStart_idout links) n hn with ⟨m, _, hmeq⟩
    simp only [Prod.mk.injEq] at hmeq
    rw [hmeq.2, outCount_eq_srcCount _ _ _ (buildNodes_resolves links), hmeq.1]

theorem buildStart_rank (links : List Link) :
    ∀ n ∈ initRanks (applyDegrees (buildNodes links) links),
      n.pagerank = 1 / (((buildNodes links).length : ℕ) : ℚ) := by
  intro n hn
  unfold initRanks at hn
  rcases List.mem_map.mp hn with ⟨m, _, rfl⟩
  have hlen : (applyDegrees (buildNodes links) links).length = (buildNodes links).length := by
    rw [applyDegrees_eq, List.length_map]
  rw [← hlen]

theorem buildStart_length (links : List Link) :
    (initRanks (applyDegrees (buildNodes links) links)).length = (buildNodes links).length := by
  unfold initRanks
  rw [List.length_map, applyDegrees_eq, List.length_map]

theorem buildStart_total (links : List Link) (hne : buildNodes links ≠ []) :
    totalRank (initRanks (applyDegrees (buildNodes links) links)) = 1 := by
  unfold totalRank
  rw [List.map_congr_left (buildStart_rank links), sum_map_const_q, buildStart_length]
  have hlen : (buildNodes links).length ≠ 0 := fun h => hne (List.length_eq_zero.mp h)
  have hQ : ((buildNodes links).length : ℚ) ≠ 0 := by exact_mod_cast hlen
  field_simp

theorem buildStart_pos (links : List Link) (hne : buildNodes links ≠ []) :
    ∀ n ∈ initRanks (applyDegrees (buildNodes links) links), 0 < n.pagerank := by
  intro n hn
  rw [buildStart_rank links n hn]
  have hlen : 0 < (buildNodes links).length := List.length_pos.mpr hne
  have hQ : (0 : ℚ) < (((buildNodes links).length : ℕ) : ℚ) := by exact_mod_cast hlen
  positivity

theorem buildStart_ne_nil (links : List Link) (hne : buildNodes links ≠ []) :
    initRanks (applyDegrees (buildNodes links) links) ≠ [] := by
  intro h
  apply hne
  have := buildStart_length links
  rw [h] at this
  exact List.length_eq_zero.mp this.symm

theorem forall_outDegree_iff (xs ys : List Node)
    (h : xs.map (fun n => n.outDegree) = ys.map (fun n => n.outDegree)) :
    (∀ n ∈ xs, n.outDegree ≠ 0) ↔ (∀ n ∈ ys, n.outDegree ≠ 0) := by
  constructor
  · intro hall n hn
    rcases exists_of_map_eq_map (fun n => n.outDegree) (fun n => n.outDegree)
      ys xs h.symm n hn with ⟨m, hm, hmeq⟩
    rw [hmeq]
    exact hall m hm
  · intro hall n hn
    rcases exists_of_map_eq_map (fun n => n.outDegree) (fun n => n.outDegree)
      xs ys h n hn with ⟨m, hm, hmeq⟩
    rw [hmeq]
    exact hall m hm

theorem headI_mem_of_ne_nil (l : List Node) [Inhabited Node] (h : l ≠ []) :
    l.headI ∈ l := by
  cases l with
  | nil => exact absurd rfl h
  | cons a t => exact List.mem_cons_self _ _

/-! ## The spec-side PageRank recurrence (for the refinement claim C3) -/

theorem lookupD_pagerank_map (m : List Node) (u : String) :
    lookupD (m.map (fun n => (n.id, n.pagerank))) u 0 =
      match m.find? (fun n => n.id = u) with
      | some s => s.pagerank
      | none => 0 := by
  induction m with
  | nil => rfl
  | cons n m ih =>
    by_cases hn : n.id = u
    · rw [List.map_cons, List.find?_cons_of_pos _ (by simp [hn])]
      simp only [lookupD, if_pos hn]
    · rw [List.map_cons, List.find?_cons_of_neg _ (by simp [hn])]
      simp only [lookupD, if_neg hn]
      exact ih

/-- Bridge between the implementation's per-target share sum (which adds an
explicit 0 for dangling sources) and the spec's filtered sum. -/
theorem tgtShareSum_eq_specSum (m : List Node) (links : List Link) (v : String)
    (hout : ∀ n ∈ m, n.outDegree = srcCount links n.id) :
    ∀ (ls : List Link), (∀ l ∈ ls, ∃ n ∈ m, n.id = l.source) →
    ((ls.filter (fun l => l.target = v)).map (shareOf m)).sum =
      ((ls.filter (fun l => l.target = v ∧ 0 < srcCount links l.source)).map
        (fun l => damping * lookupD (m.map (fun n => (n.id, n.pagerank))) l.source 0 /
          (srcCount links l.source : ℚ))).sum := by
  intro ls
  induction ls with
  | nil => intro _; rfl
  | cons l ls ih =>
    intro hcov
    have hcov' : ∀ l' ∈ ls, ∃ n ∈ m, n.id = l'.source :=
      fun l' hl' => hcov l' (List.mem_cons_of_mem _ hl')
    rcases hcov l (List.mem_cons_self _ _) with ⟨n, hn, hnid⟩
    have hfind : ∃ s, m.find? (fun n => n.id = l.source) = some s := by
      cases hf : m.find? (fun n => n.id = l.source) with
      | some s => exact ⟨s, rfl⟩
      | none =>
        exfalso
        have := List.find?_eq_none.mp hf n hn
        simp [hnid] at this
    rcases hfind with ⟨s, hs⟩
    have hsid : s.id = l.source := by
      have := List.find?_some hs
      simpa using this
    have hsmem : s ∈ m := List.mem_of_find?_eq_some hs
    have hsout : s.outDegree = srcCount links l.source := by
      rw [hout s hsmem, hsid]
    rw [List.filter_cons, List.filter_cons]
    by_cases htgt : l.target = v
    · rw [if_pos (by simp [htgt])]
      by_cases hsrc : 0 < srcCount links l.source
      · rw [if_pos (by simp [htgt, hsrc]), List.map_cons, List.sum_cons, List.map_cons,
          List.sum_cons, ih hcov']
        congr 1
        unfold shareOf srcShare
        rw [hs]
        dsimp only
        rw [if_pos (by omega : 0 < s.outDegree), lookupD_pagerank_map, hs, hsout]
      · rw [if_neg (by simp [htgt, hsrc] : ¬ (decide (l.target = v ∧ 0 < srcCount links l.source) = true)),
          List.map_cons, List.sum_cons, ih hcov']
        have hz : shareOf m l = 0 := by
          unfold shareOf srcShare
          rw [hs]
          dsimp only
          rw [if_neg (by omega : ¬ 0 < s.outDegree)]
        rw [hz, zero_add]
    · rw [if_neg (by simp [htgt]), if_neg (by simp [htgt]), ih hcov']

/-- One implementation round, written as the spec's formula over a previous
spec vector. -/
theorem rankRound_spec_step (m : List Node) (links : List Link)
    (hcovS : ∀ l ∈ links, ∃ n ∈ m, n.id = l.source)
    (hout : ∀ n ∈ m, n.outDegree = srcCount links n.id) :
    (rankRound m links).map (fun n => (n.id, n.pagerank)) =
      (m.map Node.id).map (fun v => (v, (1 - damping) / ((m.map Node.id).length : ℚ) +
        ((links.filter (fun l => l.target = v ∧ 0 < srcCount links l.source)).map
          (fun l => damping *
            lookupD (m.map (fun n => (n.id, n.pagerank))) l.source 0 /
            (srcCount links l.source : ℚ))).sum)) := by
  rw [rankRound_eq, List.map_map, List.map_map]
  apply List.map_congr_left
  intro n _
  simp only [Function.comp_apply, Prod.mk.injEq, true_and]
  rw [List.length_map]
  congr 1
  exact tgtShareSum_eq_specSum m links n.id hout links hcovS

/-- The iterated implementation rank vector coincides with the spec's
recurrence on the built graph's start state. -/
theorem rankIter_eq_specRanks (links : List Link) (k : ℕ) :
    (rankIter k (initRanks (applyDegrees (buildNodes links) links)) links).map
        (fun n => (n.id, n.pagerank)) =
      specRanks ((buildNodes links).map Node.id) links k := by
  induction k with
  | zero =>
    have hids : (initRanks (applyDegrees (buildNodes links) links)).map Node.id =
        (buildNodes links).map Node.id := by
      rw [initRanks_ids, applyDegrees_ids]
    show (initRanks (applyDegrees (buildNodes links) links)).map (fun n => (n.id, n.pagerank)) =
      ((buildNodes links).map Node.id).map
        (fun v => (v, 1 / (((buildNodes links).map Node.id).length : ℚ)))
    rw [← hids, List.map_map]
    apply List.map_congr_left
    intro n hn
    simp only [Function.comp_apply, Prod.mk.injEq, true_and]
    rw [hids, List.length_map]
    exact buildStart_rank links n hn
  | succ k ih =>
    rw [rankIter_succ_outer]
    obtain ⟨hnd, hcovS, hcovT, hout⟩ :=
      wfRank_rankIter k (initRanks (applyDegrees (buildNodes links) links)) links
        (buildStart_wf links)
    have hids : (rankIter k (initRanks (applyDegrees (buildNodes links) links)) links).map
        Node.id = (buildNodes links).map Node.id := by
      rw [rankIter_map_proj Node.id (fun n q => rfl), initRanks_ids, applyDegrees_ids]
    rw [rankRound_spec_step _ links hcovS hout, hids, ih]
    rfl

/-! ## First-occurrence deduplication and index assignment (for C5) -/

theorem mem_dedupFirstAux [DecidableEq α] (l : List α) :
    ∀ (seen : List α) (x : α), x ∈ dedupFirstAux seen l ↔ x ∈ l ∧ x ∉ seen := by
  induction l with
  | nil => intro seen x; simp [dedupFirstAux]
  | cons a l ih =>
    intro seen x
    unfold dedupFirstAux
    by_cases ha : a ∈ seen
    · rw [if_pos ha, ih]
      constructor
      · exact fun ⟨h1, h2⟩ => ⟨List.mem_cons_of_mem _ h1, h2⟩
      · rintro ⟨h1, h2⟩
        rcases List.mem_cons.mp h1 with rfl | h1
        · exact absurd ha h2
        · exact ⟨h1, h2⟩
    · rw [if_neg ha]
      constructor
      · intro hx
        rcases List.mem_cons.mp hx with rfl | hx
        · exact ⟨List.mem_cons_self _ _, ha⟩
        · rcases (ih _ _).mp hx with ⟨h1, h2⟩
          refine ⟨List.mem_cons_of_mem _ h1, fun hs => h2 (List.mem_append_left _ hs)⟩
      · rintro ⟨h1, h2⟩
        rcases List.mem_cons.mp h1 with rfl | h1
        · exact List.mem_cons_self _ _
        · by_cases hxa : x = a
          · exact hxa ▸ List.mem_cons_self _ _
          · refine List.mem_cons_of_mem _ ((ih _ _).mpr ⟨h1, fun hs => ?_⟩)
            rcases List.mem_append.mp hs with hs | hs
            · exact h2 hs
            · exact hxa (List.mem_singleton.mp hs)

theorem nodup_dedupFirstAux [DecidableEq α] (l : List α) :
    ∀ (seen : List α), (dedupFirstAux seen l).Nodup := by
  induction l with
  | nil => intro seen; exact List.nodup_nil
  | cons a l ih =>
    intro seen
    unfold dedupFirstAux
    by_cases ha : a ∈ seen
    · rw [if_pos ha]
      exact ih seen
    · rw [if_neg ha, List.nodup_cons]
      refine ⟨fun hmem => ?_, ih _⟩
      exact ((mem_dedupFirstAux l _ a).mp hmem).2 (List.mem_append_right _ (List.mem_singleton.mpr rfl))

theorem mem_dedupFirst [DecidableEq α] (l : List α) (x : α) :
    x ∈ dedupFirst l ↔ x ∈ l := by
  unfold dedupFirst
  rw [mem_dedupFirstAux]
  simp

theorem nodup_dedupFirst [DecidableEq α] (l : List α) : (dedupFirst l).Nodup :=
  nodup_dedupFirstAux l []

theorem indexOf_get_of_nodup [DecidableEq α] (l : List α) (hnd : l.Nodup) :
    ∀ (j : ℕ) (hj : j < l.length), l.indexOf (l.get ⟨j, hj⟩) = j := by
  induction l with
  | nil => intro j hj; simp at hj
  | cons a l ih =>
    intro j hj
    rw [List.nodup_cons] at hnd
    cases j with
    | zero => simp
    | succ j =>
      have hget : (a :: l).get ⟨j + 1, hj⟩ = l.get ⟨j, by simpa using hj⟩ := rfl
      rw [hget, List.indexOf_cons_ne, ih hnd.2 j (by simpa using hj)]
      intro hne
      apply hnd.1
      rw [hne]
      exact List.get_mem _ _ _

/-- First-occurrence index of `x` inside the deduplicated list equals the
number of distinct elements occurring strictly before `x`'s first
occurrence. -/
theorem indexOf_dedupFirstAux_take [DecidableEq α] (l : List α) :
    ∀ (seen : List α) (x : α), x ∈ l → x ∉ seen →
      (dedupFirstAux seen l).indexOf x =
        (dedupFirstAux seen (l.take (l.indexOf x))).length := by
  induction l with
  | nil => intro seen x hx; simp at hx
  | cons a l ih =>
    intro seen x hx hxs
    by_cases hxa : x = a
    · subst hxa
      unfold dedupFirstAux
      rw [if_neg hxs]
      simp
    · have hxl : x ∈ l := by
        rcases List.mem_cons.mp hx with rfl | h
        · exact absurd rfl hxa
        · exact h
      have hidx : (a :: l).indexOf x = l.indexOf x + 1 :=
        List.indexOf_cons_ne l (fun h => hxa h.symm)
      rw [hidx]
      have htake : (a :: l).take (l.indexOf x + 1) = a :: l.take (l.indexOf x) := rfl
      rw [htake]
      unfold dedupFirstAux
      by_cases ha : a ∈ seen
      · rw [if_pos ha, if_pos ha]
        exact ih seen x hxl hxs
      · rw [if_neg ha, if_neg ha]
        rw [List.indexOf_cons_ne _ (fun h => hxa h.symm), List.length_cons]
        have hxs' : x ∉ seen ++ [a] := by
          intro h
          rcases List.mem_append.mp h with h | h
          · exact hxs h
          · exact hxa (List.mem_singleton.mp h)
        rw [ih (seen ++ [a]) x hxl hxs']

theorem jsIndexOf_dedupFirst_take [DecidableEq α] (l : List α) (x : α) (hx : x ∈ l) :
    jsIndexOf (dedupFirst l) x =
      ((dedupFirst (l.take (l.indexOf x))).length : ℤ) := by
  unfold jsIndexOf
  rw [if_pos ((mem_dedupFirst l x).mpr hx)]
  have h := indexOf_dedupFirstAux_take l [] x hx (by simp)
  unfold dedupFirst
  exact_mod_cast h

/-! ## Label-map key invariants (for C5) -/

theorem jsSet_keys_of_mem [DecidableEq κ] (m : List (κ × ν)) (k : κ) (v : ν)
    (h : ∃ p ∈ m, p.1 = k) :
    (jsSet m k v).map (fun p => p.1) = m.map (fun p => p.1) := by
  unfold jsSet
  rw [if_pos h, List.map_map]
  apply List.map_congr_left
  intro p _
  by_cases hp : p.1 = k
  · simp [hp]
  · simp [hp]

theorem visitNode_keys (links : List Link) (labels : List (String × String)) (nid : String)
    (h : nid ∈ labels.map (fun p => p.1)) :
    (visitNode links labels nid).map (fun p => p.1) = labels.map (fun p => p.1) := by
  unfold visitNode
  by_cases hlen : 0 < (neighborLabelsOf links labels nid).length
  · rw [if_pos hlen]
    apply jsSet_keys_of_mem
    rcases List.mem_map.mp h with ⟨p, hp, hpk⟩
    exact ⟨p, hp, hpk⟩
  · rw [if_neg hlen]

theorem labelRound_keys (links : List Link) :
    ∀ (order : List String) (labels : List (String × String)),
    (∀ x ∈ order, x ∈ labels.map (fun p => p.1)) →
    (labelRound links order labels).map (fun p => p.1) = labels.map (fun p => p.1) := by
  intro order
  induction order with
  | nil => intro labels _; rfl
  | cons x order ih =>
    intro labels horder
    show (labelRound links order (visitNode links labels x)).map (fun p => p.1) = _
    have hkeys := visitNode_keys links labels x (horder x (List.mem_cons_self _ _))
    rw [ih (visitNode links labels x)
      (fun y hy => hkeys ▸ horder y (List.mem_cons_of_mem _ hy)), hkeys]

theorem initLabels_keys (ids : List String) :
    (initLabels ids).map (fun p => p.1) = ids := by
  unfold initLabels
  rw [List.map_map]
  have h : ((fun p => p.1) ∘ fun p : ℕ × String => (p.2, natToStr p.1)) =
      (fun p : ℕ × String => p.2) := rfl
  rw [h, List.enum_map_snd]

theorem mem_orderOf (ids : List String) (perm : List ℕ) (x : String)
    (hx : x ∈ orderOf ids perm) : x ∈ ids := by
  unfold orderOf at hx
  rcases List.mem_filterMap.mp hx with ⟨i, _, hget⟩
  exact List.get?_mem hget

theorem communityLabels_keys (ids : List String) (links : List Link) (sched : ℕ → List ℕ) :
    (communityLabels ids links sched).map (fun p => p.1) = ids := by
  unfold communityLabels
  suffices h : ∀ (rounds : List ℕ) (labels : List (String × String)),
      labels.map (fun p => p.1) = ids →
      (rounds.foldl (fun L i => labelRound links (orderOf ids (sched i)) L) labels).map
        (fun p => p.1) = ids by
    exact h (List.range 5) (initLabels ids) (initLabels_keys ids)
  intro rounds
  induction rounds with
  | nil => exact fun labels h => h
  | cons r rounds ih =>
    intro labels h
    rw [List.foldl_cons]
    apply ih
    rw [labelRound_keys links _ labels (fun x hx => h ▸ mem_orderOf ids (sched r) x hx), h]

theorem lookupD_mem_values [DecidableEq κ] (m : List (κ × ν)) (k : κ) (d : ν)
    (h : ∃ p ∈ m, p.1 = k) : lookupD m k d ∈ m.map (fun p => p.2) := by
  induction m with
  | nil => simp at h
  | cons p m ih =>
    simp only [lookupD]
    by_cases hp : p.1 = k
    · rw [if_pos hp]
      exact List.mem_map.mpr ⟨p, List.mem_cons_self _ _, rfl⟩
    · rw [if_neg hp]
      rcases h with ⟨q, hq, hqk⟩
      rcases List.mem_cons.mp hq with rfl | hqm
      · exact absurd hqk hp
      · rcases List.mem_map.mp (ih ⟨q, hqm, hqk⟩) with ⟨r, hr, hrv⟩
        exact List.mem_map.mpr ⟨r, List.mem_cons_of_mem _ hr, hrv⟩

theorem lookupD_of_mem_nodup [DecidableEq κ] (m : List (κ × ν)) (p : κ × ν) (d : ν)
    (hp : p ∈ m) (hnd : (m.map (fun q => q.1)).Nodup) : lookupD m p.1 d = p.2 := by
  induction m with
  | nil => simp at hp
  | cons q m ih =>
    simp only [List.map_cons, List.nodup_cons] at hnd
    simp only [lookupD]
    rcases List.mem_cons.mp hp with rfl | hpm
    · rw [if_pos rfl]
    · by_cases hq : q.1 = p.1
      · exfalso
        exact hnd.1 (hq ▸ List.mem_map.mpr ⟨p, hpm, rfl⟩)
      · rw [if_neg hq]
        exact ih hpm hnd.2

/-! ### Frequency-scan invariants (label propagation) -/

theorem scanInv_init (own : String) : scanInv [] own ([], 0, own) :=
  ⟨fun l => by simp [lookupD], fun l => by simp, fun _ => rfl, fun h => absurd rfl h⟩

theorem count_append_singleton (nls : List String) (lbl l : String) :
    (nls ++ [lbl]).count l = nls.count l + if l = lbl then 1 else 0 := by
  rw [List.count_append]
  by_cases hl : l = lbl
  · subst hl
    simp
  · simp [List.count_singleton', hl]

theorem scanInv_step (nls : List String) (own lbl : String)
    (st : List (String × ℕ) × ℕ × String) (h : scanInv nls own st) :
    scanInv (nls ++ [lbl]) own (scanStep st lbl) := by
  obtain ⟨hfreq, hmax, hown, hbest⟩ := h
  have hA : ∀ l, lookupD (jsSet st.1 lbl (nls.count lbl + 1)) l 0 = (nls ++ [lbl]).count l := by
    intro l
    rw [lookupD_jsSet, count_append_singleton]
    by_cases hl : l = lbl
    · subst hl
      rw [if_pos rfl, if_pos rfl]
    · rw [if_neg hl, if_neg hl, hfreq l]
      omega
  unfold scanStep
  dsimp only
  rw [hfreq lbl]
  by_cases hlt : st.2.1 < nls.count lbl + 1
  · rw [if_pos hlt]
    have hB : ∀ l, (nls ++ [lbl]).count l ≤ nls.count lbl + 1 := by
      intro l
      rw [count_append_singleton]
      by_cases hl : l = lbl
      · subst hl
        simp
      · rw [if_neg hl]
        have := hmax l
        omega
    have hD : firstEncounteredMax (nls ++ [lbl]) (nls.count lbl + 1) lbl := by
      refine ⟨nls.length, ?_, ?_, ?_⟩
      · exact List.get?_concat_length nls lbl
      · rw [List.take_of_length_le (by simp), count_append_singleton, if_pos rfl]
      · intro j hj l hl
        rw [List.take_append_of_le_length (by omega)]
        have h1 : (nls.take (j + 1)).count l ≤ nls.count l :=
          (List.take_sublist _ _).count_le _
        have h2 := hmax l
        omega
    exact ⟨hA, hB, fun h0 => absurd h0 (Nat.succ_ne_zero _), fun _ => hD⟩
  · rw [if_neg hlt]
    have hB : ∀ l, (nls ++ [lbl]).count l ≤ st.2.1 := by
      intro l
      rw [count_append_singleton]
      by_cases hl : l = lbl
      · subst hl
        rw [if_pos rfl]
        omega
      · rw [if_neg hl]
        have := hmax l
        omega
    have hD : st.2.1 ≠ 0 → firstEncounteredMax (nls ++ [lbl]) st.2.1 st.2.2 := by
      intro hMx
      obtain ⟨i, hget, htake, hlts⟩ := hbest hMx
      have hi : i < nls.length := by
        rcases List.get?_eq_some.mp hget with ⟨hw, _⟩
        exact hw
      refine ⟨i, ?_, ?_, ?_⟩
      · rw [List.get?_append hi]
        exact hget
      · rw [List.take_append_of_le_length (by omega)]
        exact htake
      · intro j hj l hl
        rw [List.take_append_of_le_length (by omega)]
        rw [List.get?_append (by omega)] at hl
        exact hlts j hj l hl
    exact ⟨hA, hB, hown, hD⟩

theorem scanInv_foldl (own : String) :
    ∀ (rest pre : List String) (st : List (String × ℕ) × ℕ × String),
      scanInv pre own st → scanInv (pre ++ rest) own (rest.foldl scanStep st)
  | [], pre, st, h => by simpa using h
  | a :: rest, pre, st, h => by
    rw [List.foldl_cons, show pre ++ a :: rest = (pre ++ [a]) ++ rest by simp]
    exact scanInv_foldl own rest (pre ++ [a]) (scanStep st a) (scanInv_step pre own a st h)

theorem scanInv_full (nls : List String) (own : String) :
    scanInv nls own (nls.foldl scanStep ([], 0, own)) := by
  have h := scanInv_foldl own nls [] ([], 0, own) (scanInv_init own)
  simpa using h

theorem bestLabelScan_spec (nls : List String) (own : String) (hne : nls ≠ []) :
    bestLabelScan nls own ∈ nls ∧
    (∀ lbl ∈ nls, nls.count lbl ≤ nls.count (bestLabelScan nls own)) ∧
    firstEncounteredMax nls (nls.count (bestLabelScan nls own)) (bestLabelScan nls own) := by
  obtain ⟨hfreq, hmax, hown, hbest⟩ := scanInv_full nls own
  have hMx : (nls.foldl scanStep ([], 0, own)).2.1 ≠ 0 := by
    intro h0
    obtain ⟨a, nls', rfl⟩ := List.exists_cons_of_ne_nil hne
    have ha := hmax a
    rw [h0, List.count_cons_self] at ha
    omega
  obtain ⟨i, hget, htake, hlts⟩ := hbest hMx
  obtain ⟨hi, hgi⟩ := List.get?_eq_some.mp hget
  have hw_mem : bestLabelScan nls own ∈ nls := by
    show (nls.foldl scanStep ([], 0, own)).2.2 ∈ nls
    rw [← hgi]
    exact List.get_mem _ _ _
  have hcount : nls.count (bestLabelScan nls own) = (nls.foldl scanStep ([], 0, own)).2.1 := by
    have h1 : (nls.take (i + 1)).count (bestLabelScan nls own) ≤
        nls.count (bestLabelScan nls own) := (List.take_sublist _ _).count_le _
    have h2 := hmax (bestLabelScan nls own)
    have h3 : (nls.take (i + 1)).count (bestLabelScan nls own) =
        (nls.foldl scanStep ([], 0, own)).2.1 := htake
    omega
  refine ⟨hw_mem, ?_, ?_⟩
  · intro lbl _
    rw [hcount]
    exact hmax lbl
  · rw [hcount]
    exact hbest hMx

theorem visitNode_label (links : List Link) (labels : List (String × String)) (nid : String)
    (hne : neighborLabelsOf links labels nid ≠ []) :
    lookupD (visitNode links labels nid) nid "" =
      bestLabelScan (neighborLabelsOf links labels nid) (lookupD labels nid "") := by
  unfold visitNode
  dsimp only
  rw [if_pos (List.length_pos.mpr hne), lookupD_jsSet, if_pos rfl]

/-! ### Injectivity of the generated ids -/

theorem digitVal_digitChar (d : ℕ) (h : d < 10) : digitVal (digitChar d) = d := by
  interval_cases d <;> decide

theorem digitsToNat_natDigitsAux :
    ∀ (fuel n : ℕ), n < 10 ^ fuel → digitsToNat (natDigitsAux fuel n) = n
  | 0, n, h => by
    simp only [pow_zero, Nat.lt_one_iff] at h
    subst h
    rfl
  | fuel + 1, n, h => by
    unfold natDigitsAux
    by_cases hn : n < 10
    · rw [if_pos hn]
      show 0 * 10 + digitVal (digitChar n) = n
      rw [digitVal_digitChar n hn]
      omega
    · rw [if_neg hn]
      have hdiv : n / 10 < 10 ^ fuel := by
        rw [Nat.div_lt_iff_lt_mul (by norm_num)]
        calc n < 10 ^ (fuel + 1) := h
        _ = 10 ^ fuel * 10 := by ring
      have ih := digitsToNat_natDigitsAux fuel (n / 10) hdiv
      unfold digitsToNat at ih ⊢
      rw [List.foldl_append, ih]
      show (n / 10) * 10 + digitVal (digitChar (n % 10)) = n
      rw [digitVal_digitChar _ (Nat.mod_lt n (by norm_num))]
      omega

theorem digitsToNat_natDigits (n : ℕ) : digitsToNat (natDigits n) = n := by
  unfold natDigits
  exact digitsToNat_natDigitsAux (n + 1) n
    (lt_of_lt_of_le (Nat.lt_pow_self (by norm_num) n)
      (Nat.pow_le_pow_right (by norm_num) (Nat.le_succ n)))

theorem natToStr_inj (m n : ℕ) (h : natToStr m = natToStr n) : m = n := by
  unfold natToStr at h
  have hdata : natDigits m = natDigits n := congrArg String.data h
  calc m = digitsToNat (natDigits m) := (digitsToNat_natDigits m).symm
  _ = digitsToNat (natDigits n) := congrArg digitsToNat hdata
  _ = n := digitsToNat_natDigits n

theorem userId_inj (i j : ℕ) (h : userId i = userId j) : i = j := by
  unfold userId at h
  have hdata := congrArg String.data h
  simp only [String.data_append] at hdata
  exact natToStr_inj i j (congrArg String.mk (List.append_cancel_left hdata))

theorem userId_not_mem_range (i : ℕ) : userId i ∉ (List.range i).map userId := by
  intro hmem
  rcases List.mem_map.mp hmem with ⟨j, hj, hji⟩
  have := userId_inj j i hji
  subst this
  exact absurd (List.mem_range.mp hj) (lt_irrefl j)

/-! ### Growth-loop characterization -/

theorem walkCumulative_mem :
    ∀ (pairs : List (String × ℕ)) (cum rand : ℚ) (id : String),
      walkCumulative pairs cum rand = some id → id ∈ pairs.map Prod.fst
  | [], _, _, _, h => by cases h
  | (pid, w) :: rest, cum, rand, id, h => by
    unfold walkCumulative at h
    dsimp only at h
    by_cases hle : rand ≤ cum + (w : ℚ)
    · rw [if_pos hle] at h
      cases h
      exact List.mem_map.mpr ⟨(pid, w), List.mem_cons_self _ _, rfl⟩
    · rw [if_neg hle] at h
      exact List.mem_cons_of_mem _ (walkCumulative_mem rest _ _ _ h)

theorem growLoop_append_count (newId : String) (pairs : List (String × ℕ))
    (total : ℕ) (rng : ℕ → ℚ) :
    ∀ (fuel t : ℕ) (links : List Link) (added : ℕ) (links' : List Link) (t' : ℕ),
      added ≤ 2 →
      growLoop newId pairs total rng t links added fuel = some (links', t') →
      ∃ L, links' = links ++ L ∧ added + L.length = 2 ∧
        ∀ l ∈ L, l.source = newId ∧ l.target ∈ pairs.map Prod.fst
  | 0, t, links, added, links', t', hadd, h => by
    unfold growLoop at h
    by_cases hlt : added < 2
    · rw [if_pos hlt] at h
      cases h
    · rw [if_neg hlt] at h
      cases h
      exact ⟨[], by simp, by simp only [List.length_nil]; omega, by simp⟩
  | fuel + 1, t, links, added, links', t', hadd, h => by
    unfold growLoop at h
    by_cases hlt : added < 2
    · rw [if_pos hlt] at h
      dsimp only at h
      rcases hwalk : walkCumulative pairs 0 (rng t * (total : ℚ)) with _ | target
      · rw [hwalk] at h
        dsimp only at h
        rcases growLoop_append_count newId pairs total rng fuel (t + 1) links added
          links' t' hadd h with ⟨L, hL, hlen, hmem⟩
        exact ⟨L, hL, hlen, hmem⟩
      · rw [hwalk] at h
        dsimp only at h
        by_cases hex : linkExists links newId target
        · rw [if_pos hex] at h
          exact growLoop_append_count newId pairs total rng fuel (t + 1) links added
            links' t' hadd h
        · rw [if_neg hex] at h
          rcases growLoop_append_count newId pairs total rng fuel (t + 1)
            (links ++ [{ source := newId, target := target }]) (added + 1)
            links' t' (by omega) h with ⟨L, hL, hlen, hmem⟩
          refine ⟨{ source := newId, target := target } :: L, by simpa using hL,
            by simp only [List.length_cons]; omega, ?_⟩
          intro l hl
          rcases List.mem_cons.mp hl with rfl | hlL
          · exact ⟨rfl, walkCumulative_mem pairs 0 _ target hwalk⟩
          · exact hmem l hlL
    · rw [if_neg hlt] at h
      cases h
      exact ⟨[], by simp, by simp only [List.length_nil]; omega, by simp⟩

theorem growLoop_inv (newId : String) (pairs : List (String × ℕ))
    (total : ℕ) (rng : ℕ → ℚ) (hfresh : ∀ p ∈ pairs, p.1 ≠ newId) :
    ∀ (fuel t : ℕ) (links : List Link) (added : ℕ) (links' : List Link) (t' : ℕ),
      growLoop newId pairs total rng t links added fuel = some (links', t') →
      (∀ l ∈ links, l.source ≠ l.target) →
      links.Pairwise (fun a b => ¬ sameUndirected a b) →
      (∀ l ∈ links', l.source ≠ l.target) ∧
        links'.Pairwise (fun a b => ¬ sameUndirected a b)
  | 0, t, links, added, links', t', h, hself, hdup => by
    unfold growLoop at h
    by_cases hlt : added < 2
    · rw [if_pos hlt] at h
      cases h
    · rw [if_neg hlt] at h
      cases h
      exact ⟨hself, hdup⟩
  | fuel + 1, t, links, added, links', t', h, hself, hdup => by
    unfold growLoop at h
    by_cases hlt : added < 2
    · rw [if_pos hlt] at h
      dsimp only at h
      rcases hwalk : walkCumulative pairs 0 (rng t * (total : ℚ)) with _ | target
      · rw [hwalk] at h
        dsimp only at h
        exact growLoop_inv newId pairs total rng hfresh fuel (t + 1) links added
          links' t' h hself hdup
      · rw [hwalk] at h
        dsimp only at h
        by_cases hex : linkExists links newId target
        · rw [if_pos hex] at h
          exact growLoop_inv newId pairs total rng hfresh fuel (t + 1) links added
            links' t' h hself hdup
        · rw [if_neg hex] at h
          have htgt : target ∈ pairs.map Prod.fst := walkCumulative_mem pairs 0 _ target hwalk
          have htne : target ≠ newId := by
            rcases List.mem_map.mp htgt with ⟨p, hp, hpt⟩
            exact hpt ▸ hfresh p hp
          apply growLoop_inv newId pairs total rng hfresh fuel (t + 1) _ (added + 1)
            links' t' h
          · intro l hl
            rcases List.mem_append.mp hl with hl | hl
            · exact hself l hl
            · rcases List.mem_singleton.mp hl with rfl
              exact fun hc => htne hc.symm
          · rw [List.pairwise_append]
            refine ⟨hdup, List.pairwise_singleton _ _, ?_⟩
            intro a ha b hb hsame
            rcases List.mem_singleton.mp hb with rfl
            apply hex
            rcases hsame with ⟨h1, h2⟩ | ⟨h1, h2⟩
            · exact ⟨a, ha, Or.inl ⟨h1, h2⟩⟩
            · exact ⟨a, ha, Or.inr ⟨h1, h2⟩⟩
    · rw [if_neg hlt] at h
      cases h
      exact ⟨hself, hdup⟩

theorem countIncident_append (xs ys : List Link) (v : String) :
    countIncident (xs ++ ys) v = countIncident xs v + countIncident ys v := by
  unfold countIncident
  rw [List.filter_append, List.length_append]

theorem countIncident_all_src (L : List Link) (v : String) (h : ∀ l ∈ L, l.source = v) :
    countIncident L v = L.length := by
  unfold countIncident
  rw [List.filter_eq_self.mpr]
  intro l hl
  simp [h l hl]

theorem mem_buildStep (acc : List Node) (l : Link) (n : Node) (hn : n ∈ buildStep acc l) :
    n ∈ acc ∨ n.id = l.source ∨ n.id = l.target := by
  unfold buildStep at hn
  dsimp only at hn
  by_cases h1 : hasId acc l.source
  · rw [if_pos h1] at hn
    by_cases h2 : hasId acc l.target
    · rw [if_pos h2] at hn
      exact Or.inl hn
    · rw [if_neg h2] at hn
      rcases List.mem_append.mp hn with h | h
      · exact Or.inl h
      · rcases List.mem_singleton.mp h with rfl
        exact Or.inr (Or.inr rfl)
  · rw [if_neg h1] at hn
    by_cases h2 : hasId (acc ++ [mkNode l.source]) l.target
    · rw [if_pos h2] at hn
      rcases List.mem_append.mp hn with h | h
      · exact Or.inl h
      · rcases List.mem_singleton.mp h with rfl
        exact Or.inr (Or.inl rfl)
    · rw [if_neg h2] at hn
      rcases List.mem_append.mp hn with h | h
      · rcases List.mem_append.mp h with h' | h'
        · exact Or.inl h'
        · rcases List.mem_singleton.mp h' with rfl
          exact Or.inr (Or.inl rfl)
      · rcases List.mem_singleton.mp h with rfl
        exact Or.inr (Or.inr rfl)

theorem mem_foldl_build (links : List Link) :
    ∀ (acc : List Node) (n : Node), n ∈ links.foldl buildStep acc →
      n ∈ acc ∨ ∃ l ∈ links, n.id = l.source ∨ n.id = l.target := by
  induction links with
  | nil => exact fun acc n h => Or.inl h
  | cons l rest ih =>
    intro acc n h
    rw [List.foldl_cons] at h
    rcases ih (buildStep acc l) n h with h' | ⟨l', hl', hor⟩
    · rcases mem_buildStep acc l n h' with h'' | hor
      · exact Or.inl h''
      · exact Or.inr ⟨l, List.mem_cons_self _ _, hor⟩
    · exact Or.inr ⟨l', List.mem_cons_of_mem _ hl', hor⟩

theorem mem_buildNodes (links : List Link) (n : Node) (hn : n ∈ buildNodes links) :
    ∃ l ∈ links, n.id = l.source ∨ n.id = l.target := by
  rcases mem_foldl_build links [] n hn with h | h
  · simp at h
  · exact h

theorem growAll_append (rng : ℕ → ℚ) (fuel : ℕ) :
    ∀ (count i : ℕ) (ids : List String) (links : List Link) (t : ℕ)
      (ids' : List String) (links' : List Link) (t' : ℕ),
      growAll rng fuel count i ids links t = some (ids', links', t') →
      ∃ L, links' = links ++ L
  | 0, i, ids, links, t, ids', links', t', h => by
    unfold growAll at h
    cases h
    exact ⟨[], by simp⟩
  | count + 1, i, ids, links, t, ids', links', t', h => by
    unfold growAll at h
    dsimp only at h
    rcases hgl : growLoop (userId i)
        ((ids ++ [userId i]).dropLast.zip
          ((ids ++ [userId i]).map (fun id => countIncident links id + 1)))
        ((ids ++ [userId i]).map (fun id => countIncident links id + 1)).sum
        rng t links 0 fuel with _ | p
    · rw [hgl] at h
      cases h
    · rw [hgl] at h
      dsimp only at h
      rcases growLoop_append_count _ _ _ rng fuel t links 0 p.1 p.2
        (by omega) (by rw [hgl]) with ⟨L1, hL1, _, _⟩
      rcases growAll_append rng fuel count (i + 1) (ids ++ [userId i]) p.1 p.2
        ids' links' t' h with ⟨L2, hL2⟩
      exact ⟨L1 ++ L2, by rw [hL2, hL1, List.append_assoc]⟩

theorem growAll_inv (rng : ℕ → ℚ) (fuel : ℕ) :
    ∀ (count i : ℕ) (ids : List String) (links : List Link) (t : ℕ)
      (ids' : List String) (links' : List Link) (t' : ℕ),
      growAll rng fuel count i ids links t = some (ids', links', t') →
      ids = (List.range i).map userId →
      (∀ l ∈ links, l.source ∈ ids ∧ l.target ∈ ids) →
      (∀ id ∈ ids, ∃ l ∈ links, l.source = id ∨ l.target = id) →
      (∀ l ∈ links, l.source ≠ l.target) →
      links.Pairwise (fun a b => ¬ sameUndirected a b) →
      (∀ j, 5 ≤ j → j < i → 2 ≤ countIncident links (userId j)) →
      ids' = (List.range (i + count)).map userId ∧
      (∀ l ∈ links', l.source ∈ ids' ∧ l.target ∈ ids') ∧
      (∀ id ∈ ids', ∃ l ∈ links', l.source = id ∨ l.target = id) ∧
      (∀ l ∈ links', l.source ≠ l.target) ∧
      links'.Pairwise (fun a b => ¬ sameUndirected a b) ∧
      (∀ j, 5 ≤ j → j < i + count → 2 ≤ countIncident links' (userId j))
  | 0, i, ids, links, t, ids', links', t', h, hids, hend, hcov, hself, hdup, hcnt => by
    unfold growAll at h
    cases h
    rw [Nat.add_zero]
    exact ⟨hids, hend, hcov, hself, hdup, hcnt⟩
  | count + 1, i, ids, links, t, ids', links', t', h, hids, hend, hcov, hself, hdup, hcnt => by
    unfold growAll at h
    dsimp only at h
    rcases hgl : growLoop (userId i)
        ((ids ++ [userId i]).dropLast.zip
          ((ids ++ [userId i]).map (fun id => countIncident links id + 1)))
        ((ids ++ [userId i]).map (fun id => countIncident links id + 1)).sum
        rng t links 0 fuel with _ | p
    · rw [hgl] at h
      cases h
    · rw [hgl] at h
      dsimp only at h
      have hfreshIds : userId i ∉ ids := by
        rw [hids]
        exact userId_not_mem_range i
      have hpairs_fst : ∀ v ∈ ((ids ++ [userId i]).dropLast.zip
          ((ids ++ [userId i]).map (fun id => countIncident links id + 1))).map Prod.fst,
          v ∈ ids := by
        intro v hv
        rcases List.mem_map.mp hv with ⟨q, hq, hqv⟩
        have h1 := (List.mem_zip hq).1
        rw [List.dropLast_concat] at h1
        exact hqv ▸ h1
      have hfresh : ∀ q ∈ ((ids ++ [userId i]).dropLast.zip
          ((ids ++ [userId i]).map (fun id => countIncident links id + 1))),
          q.1 ≠ userId i := by
        intro q hq hq1
        exact hfreshIds (hq1 ▸ hpairs_fst q.1 (List.mem_map.mpr ⟨q, hq, rfl⟩))
      rcases growLoop_append_count _ _ _ rng fuel t links 0 p.1 p.2
        (by omega) (by rw [hgl]) with ⟨L, hL, hLlen, hLmem⟩
      have hself1 : ∀ l ∈ p.1, l.source ≠ l.target := by
        have := growLoop_inv _ _ _ rng hfresh fuel t links 0 p.1 p.2
          (by rw [hgl]) hself hdup
        exact this.1
      have hdup1 : p.1.Pairwise (fun a b => ¬ sameUndirected a b) := by
        have := growLoop_inv _ _ _ rng hfresh fuel t links 0 p.1 p.2
          (by rw [hgl]) hself hdup
        exact this.2
      have hids1 : ids ++ [userId i] = (List.range (i + 1)).map userId := by
        rw [List.range_succ, List.map_append, ← hids]
        rfl
      have hend1 : ∀ l ∈ p.1, l.source ∈ ids ++ [userId i] ∧ l.target ∈ ids ++ [userId i] := by
        intro l hl
        rw [hL] at hl
        rcases List.mem_append.mp hl with hl | hl
        · exact ⟨List.mem_append_left _ (hend l hl).1, List.mem_append_left _ (hend l hl).2⟩
        · rcases hLmem l hl with ⟨hs, ht⟩
          exact ⟨hs ▸ List.mem_append_right _ (List.mem_singleton_self _),
            List.mem_append_left _ (hpairs_fst _ ht)⟩
      have hcov1 : ∀ id ∈ ids ++ [userId i], ∃ l ∈ p.1, l.source = id ∨ l.target = id := by
        intro id hid
        rcases List.mem_append.mp hid with hid | hid
        · rcases hcov id hid with ⟨l, hl, hor⟩
          exact ⟨l, hL ▸ List.mem_append_left _ hl, hor⟩
        · rcases List.mem_singleton.mp hid with rfl
          rcases L with _ | ⟨l0, Lrest⟩
          · simp at hLlen
          · exact ⟨l0, hL ▸ List.mem_append_right _ (List.mem_cons_self _ _),
              Or.inl (hLmem l0 (List.mem_cons_self _ _)).1⟩
      have hcnt1 : ∀ j, 5 ≤ j → j < i + 1 → 2 ≤ countIncident p.1 (userId j) := by
        intro j h5 hji
        rw [hL, countIncident_append]
        by_cases hji' : j < i
        · have := hcnt j h5 hji'
          omega
        · have hj : j = i := by omega
          subst hj
          have : countIncident L (userId j) = L.length :=
            countIncident_all_src L (userId j) (fun l hl => (hLmem l hl).1)
          omega
      have hrec := growAll_inv rng fuel count (i + 1) (ids ++ [userId i]) p.1 p.2
        ids' links' t' h hids1 hend1 hcov1 hself1 hdup1 hcnt1
      have harith : i + (count + 1) = (i + 1) + count := by omega
      rw [harith]
      exact hrec

/-! ### Congruence of the metric pipeline in the consumed input fields -/

theorem proj2_fst (ns : List Node) : (ns.map proj2).map Prod.fst = ns.map Node.id := by
  rw [List.map_map]
  exact List.map_congr_left (fun n _ => rfl)

theorem proj6_fst (ns : List Node) :
    (ns.map proj6).map Prod.fst = ns.map (fun n => n.id) := by
  rw [List.map_map]
  exact List.map_congr_left (fun n _ => rfl)

theorem map_length_eq {γ : Type} (f : Node → γ) (A B : List Node)
    (h : A.map f = B.map f) : A.length = B.length := by
  have h2 := congrArg List.length h
  simpa using h2

theorem foldl_congr_fun {α β : Type} (f g : α → β → α) (hfg : ∀ a b, f a b = g a b) :
    ∀ (l : List β) (a : α), l.foldl f a = l.foldl g a
  | [], _ => rfl
  | b :: l, a => by
    rw [List.foldl_cons, List.foldl_cons, hfg a b]
    exact foldl_congr_fun f g hfg l _

theorem find?_congr_proj6 :
    ∀ (A B : List Node), A.map proj6 = B.map proj6 → ∀ (s : String),
      Option.map proj6 (A.find? (fun n => n.id = s)) =
        Option.map proj6 (B.find? (fun n => n.id = s))
  | [], B, h, s => by
    have hB : B = [] := by
      cases B with
      | nil => rfl
      | cons b B' => simp at h
    subst hB
    rfl
  | a :: A', B, h, s => by
    cases B with
    | nil => simp at h
    | cons b B' =>
      rw [List.map_cons, List.map_cons] at h
      have hab : proj6 a = proj6 b := (List.cons_eq_cons.mp h).1
      have htl : A'.map proj6 = B'.map proj6 := (List.cons_eq_cons.mp h).2
      have hid : a.id = b.id := congrArg Prod.fst hab
      by_cases hs : a.id = s
      · rw [List.find?_cons_of_pos _ (by simp [hs]),
          List.find?_cons_of_pos _ (by simp [hid.symm.trans hs])]
        simp [hab]
      · rw [List.find?_cons_of_neg _ (by simp [hs]),
          List.find?_cons_of_neg _ (by simp [show ¬ b.id = s from fun hb => hs (hid.trans hb)])]
        exact find?_congr_proj6 A' B' htl s

theorem rankStep_congr (A B : List Node) (h : A.map proj6 = B.map proj6)
    (m : List (String × ℚ)) (l : Link) : rankStep A m l = rankStep B m l := by
  have hf := find?_congr_proj6 A B h l.source
  unfold rankStep
  rcases hA : A.find? (fun n => n.id = l.source) with _ | sa <;>
    rcases hB : B.find? (fun n => n.id = l.source) with _ | sb <;>
    rw [hA, hB] at hf <;>
    simp only [Option.map_some', Option.map_none'] at hf <;>
    rw [hA, hB]
  · exact absurd hf (by simp)
  · exact absurd hf (by simp)
  · dsimp only
    have hout : sa.outDegree = sb.outDegree :=
      congrArg (fun p => p.2.2.2.1) (Option.some.inj hf)
    have hpr : sa.pagerank = sb.pagerank :=
      congrArg (fun p => p.2.2.2.2.2) (Option.some.inj hf)
    rw [hout, hpr]

theorem newRanks_congr (A B : List Node) (links : List Link)
    (h : A.map proj6 = B.map proj6) : newRanks A links = newRanks B links := by
  unfold newRanks
  have hlen : A.length = B.length := map_length_eq proj6 A B h
  have hbase : A.map (fun n => (n.id, (1 - damping) / (A.length : ℚ))) =
      B.map (fun n => (n.id, (1 - damping) / (B.length : ℚ))) := by
    rw [hlen]
    have hA : A.map (fun n => (n.id, (1 - damping) / (B.length : ℚ))) =
        (A.map proj6).map (fun p => (p.1, (1 - damping) / (B.length : ℚ))) := by
      rw [List.map_map]
      exact List.map_congr_left (fun n _ => rfl)
    have hB : B.map (fun n => (n.id, (1 - damping) / (B.length : ℚ))) =
        (B.map proj6).map (fun p => (p.1, (1 - damping) / (B.length : ℚ))) := by
      rw [List.map_map]
      exact List.map_congr_left (fun n _ => rfl)
    rw [hA, hB, h]
  rw [hbase]
  exact foldl_congr_fun _ _ (rankStep_congr A B h) links _

theorem rankRound_congr_proj6 (A B : List Node) (links : List Link)
    (h : A.map proj6 = B.map proj6) :
    (rankRound A links).map proj6 = (rankRound B links).map proj6 := by
  have hRA : rankRound A links =
      A.map (fun n => { n with pagerank := lookupD (newRanks A links) n.id 0 }) := rfl
  have hRB : rankRound B links =
      B.map (fun n => { n with pagerank := lookupD (newRanks B links) n.id 0 }) := rfl
  rw [hRA, hRB, newRanks_congr A B links h]
  have hA : (A.map (fun n => { n with pagerank := lookupD (newRanks B links) n.id 0 })).map proj6 =
      (A.map proj6).map (fun p => (p.1, p.2.1, p.2.2.1, p.2.2.2.1, p.2.2.2.2.1,
        lookupD (newRanks B links) p.1 0)) := by
    rw [List.map_map, List.map_map]
    exact List.map_congr_left (fun n _ => rfl)
  have hB : (B.map (fun n => { n with pagerank := lookupD (newRanks B links) n.id 0 })).map proj6 =
      (B.map proj6).map (fun p => (p.1, p.2.1, p.2.2.1, p.2.2.2.1, p.2.2.2.2.1,
        lookupD (newRanks B links) p.1 0)) := by
    rw [List.map_map, List.map_map]
    exact List.map_congr_left (fun n _ => rfl)
  rw [hA, hB, h]

theorem rankIter_congr_proj6 (links : List Link) :
    ∀ (k : ℕ) (A B : List Node), A.map proj6 = B.map proj6 →
      (rankIter k A links).map proj6 = (rankIter k B links).map proj6
  | 0, _, _, h => h
  | k + 1, A, B, h => by
    show (rankIter k (rankRound A links) links).map proj6 =
      (rankIter k (rankRound B links) links).map proj6
    exact rankIter_congr_proj6 links k _ _ (rankRound_congr_proj6 A B links h)

theorem initRanks_applyDegrees_congr (A B : List Node) (links : List Link)
    (h : A.map proj2 = B.map proj2) :
    (initRanks (applyDegrees A links)).map proj6 =
      (initRanks (applyDegrees B links)).map proj6 := by
  have hids : A.map Node.id = B.map Node.id := by
    rw [← proj2_fst A, ← proj2_fst B, h]
  have hlen : A.length = B.length := map_length_eq proj2 A B h
  have hA : (initRanks (applyDegrees A links)).map proj6 =
      (A.map proj2).map (fun p =>
        (p.1,
         outCount (A.map Node.id) links p.1 + inCount (A.map Node.id) links p.1,
         inCount (A.map Node.id) links p.1,
         outCount (A.map Node.id) links p.1,
         p.2,
         1 / (A.length : ℚ))) := by
    rw [applyDegrees_eq]
    unfold initRanks
    simp only [List.map_map, List.length_map]
    exact List.map_congr_left (fun n _ => rfl)
  have hB : (initRanks (applyDegrees B links)).map proj6 =
      (B.map proj2).map (fun p =>
        (p.1,
         outCount (B.map Node.id) links p.1 + inCount (B.map Node.id) links p.1,
         inCount (B.map Node.id) links p.1,
         outCount (B.map Node.id) links p.1,
         p.2,
         1 / (B.length : ℚ))) := by
    rw [applyDegrees_eq]
    unfold initRanks
    simp only [List.map_map, List.length_map]
    exact List.map_congr_left (fun n _ => rfl)
  rw [hA, hB, h, hids, hlen]

theorem assignGroups_congr (A B : List Node) (labels : List (String × String))
    (h : A.map proj6 = B.map proj6) : assignGroups A labels = assignGroups B labels := by
  unfold assignGroups
  have hA : A.map (fun n => { n with group := jsIndexOf (dedupFirst (labels.map (fun p : String × String => p.2))) (lookupD labels n.id "") }) =
      (A.map proj6).map (fun p =>
        { id := p.1, degree := p.2.1, inDegree := p.2.2.1, outDegree := p.2.2.2.1,
          betweenness := p.2.2.2.2.1, pagerank := p.2.2.2.2.2,
          group := (jsIndexOf (dedupFirst (labels.map (fun q : String × String => q.2)))
            (lookupD labels p.1 "")) }) := by
    rw [List.map_map]
    exact List.map_congr_left (fun n _ => rfl)
  have hB : B.map (fun n => { n with group := jsIndexOf (dedupFirst (labels.map (fun p : String × String => p.2))) (lookupD labels n.id "") }) =
      (B.map proj6).map (fun p =>
        { id := p.1, degree := p.2.1, inDegree := p.2.2.1, outDegree := p.2.2.2.1,
          betweenness := p.2.2.2.2.1, pagerank := p.2.2.2.2.2,
          group := (jsIndexOf (dedupFirst (labels.map (fun q : String × String => q.2)))
            (lookupD labels p.1 "")) }) := by
    rw [List.map_map]
    exact List.map_congr_left (fun n _ => rfl)
  rw [hA, hB, h]

theorem calculateMetrics_congr (A B : List Node) (links : List Link) (sched : ℕ → List ℕ)
    (h : A.map proj2 = B.map proj2) :
    calculateMetrics { nodes := A, links := links } sched =
      calculateMetrics { nodes := B, links := links } sched := by
  have h6 : (rankedNodes { nodes := A, links := links }).map proj6 =
      (rankedNodes { nodes := B, links := links }).map proj6 := by
    unfold rankedNodes
    exact rankIter_congr_proj6 links 20 _ _ (initRanks_applyDegrees_congr A B links h)
  have hids6 : (rankedNodes { nodes := A, links := links }).map (fun n => n.id) =
      (rankedNodes { nodes := B, links := links }).map (fun n => n.id) := by
    rw [← proj6_fst, ← proj6_fst, h6]
  have hlab : finalLabels { nodes := A, links := links } sched =
      finalLabels { nodes := B, links := links } sched := by
    unfold finalLabels
    rw [hids6]
  have hupd : updatedNodes { nodes := A, links := links } sched =
      updatedNodes { nodes := B, links := links } sched := by
    unfold updatedNodes
    rw [hlab]
    exact assignGroups_congr _ _ _ h6
  have hsum : networkSummary { nodes := A, links := links } sched =
      networkSummary { nodes := B, links := links } sched := by
    unfold networkSummary
    rw [hupd, hlab]
  unfold calculateMetrics
  rw [hupd, hsum]

/-! ## Claim theorems -/

/-- C1: the spec requires `density` and `avgDegree` to be special-cased to 0
for `N ≤ 1`, but `calculateMetrics` performs the divisions unguarded: on the
empty edge list both metrics are `0 / 0 = NaN`, and on the single-node
self-loop graph `[("A","A")]` density is `1 / 0 = Infinity` and avgDegree is
`1`, not `0`.  This theorem exhibits the divergence at those inputs. -/
theorem C1_div_by_zero_unguarded :
    ((calculateMetrics (buildGraphFromLinks []) schedNil).2.density = JSNum.nan ∧
      (calculateMetrics (buildGraphFromLinks []) schedNil).2.avgDegree = JSNum.nan) ∧
    ((calculateMetrics
        (buildGraphFromLinks [{ source := "A", target := "A" }]) schedNil).2.density =
          JSNum.inf ∧
      (calculateMetrics
        (buildGraphFromLinks [{ source := "A", target := "A" }]) schedNil).2.avgDegree =
          JSNum.num 1) := by
  with_unfolding_all decide

/-- C2 (amended: for graphs with at least one node): after the pipeline all
ranks are nonnegative, the rank sum is at most 1, it equals 1 exactly when
no node has out-degree 0, and with a dangling node present it is strictly
below 1. -/
theorem C2_rank_mass (links : List Link) (sched : ℕ → List ℕ)
    (hne : (buildGraphFromLinks links).nodes ≠ []) :
    (∀ n ∈ (calculateMetrics (buildGraphFromLinks links) sched).1, 0 ≤ n.pagerank) ∧
    totalRank (calculateMetrics (buildGraphFromLinks links) sched).1 ≤ 1 ∧
    (totalRank (calculateMetrics (buildGraphFromLinks links) sched).1 = 1 ↔
      ∀ n ∈ (calculateMetrics (buildGraphFromLinks links) sched).1, n.outDegree ≠ 0) ∧
    ((∃ n ∈ (calculateMetrics (buildGraphFromLinks links) sched).1, n.outDegree = 0) →
      totalRank (calculateMetrics (buildGraphFromLinks links) sched).1 < 1) := by
  have hbne : buildNodes links ≠ [] := hne
  have hcalc : (calculateMetrics (buildGraphFromLinks links) sched).1 =
      assignGroups (rankIter 20 (initRanks (applyDegrees (buildNodes links) links)) links)
        (finalLabels (buildGraphFromLinks links) sched) := by
    rw [calculateMetrics_fst]
    unfold updatedNodes rankedNodes
    rfl
  have hwf0 := buildStart_wf links
  have hne0 := buildStart_ne_nil links hbne
  have hpos0 := buildStart_pos links hbne
  have hnn0 : ∀ n ∈ initRanks (applyDegrees (buildNodes links) links), 0 ≤ n.pagerank :=
    fun n hn => le_of_lt (hpos0 n hn)
  have htot0 := buildStart_total links hbne
  -- transfer lemmas from the final node list back to the iterated one
  have htot3 : totalRank (calculateMetrics (buildGraphFromLinks links) sched).1 =
      totalRank (rankIter 20 (initRanks (applyDegrees (buildNodes links) links)) links) := by
    rw [hcalc]
    unfold totalRank
    rw [assignGroups_map_proj (fun n => n.pagerank) (fun n g => rfl)]
  have hout3 : ((calculateMetrics (buildGraphFromLinks links) sched).1).map
        (fun n => n.outDegree) =
      (initRanks (applyDegrees (buildNodes links) links)).map (fun n => n.outDegree) := by
    rw [hcalc, assignGroups_map_proj (fun n => n.outDegree) (fun n g => rfl)]
    exact rankIter_map_proj (fun n => n.outDegree) (fun n q => rfl) 20 _ links
  have hlt_of_dangling :
      (∃ n ∈ (calculateMetrics (buildGraphFromLinks links) sched).1, n.outDegree = 0) →
      totalRank (calculateMetrics (buildGraphFromLinks links) sched).1 < 1 := by
    intro hdang
    rcases hdang with ⟨n, hn, hnd0⟩
    rcases exists_of_map_eq_map (fun n => n.outDegree) (fun n => n.outDegree)
      _ _ hout3 n hn with ⟨m, hm, hmeq⟩
    have hdang0 : ∃ u ∈ initRanks (applyDegrees (buildNodes links) links), u.outDegree = 0 :=
      ⟨m, hm, by omega⟩
    have h20 : (20 : ℕ) = 19 + 1 := rfl
    rw [htot3, h20]
    exact rankIter_total_lt_one links 19 _ hwf0 hne0 hpos0 (le_of_eq htot0) hdang0
  refine ⟨?_, ?_, ⟨?_, ?_⟩, hlt_of_dangling⟩
  · -- nonnegativity
    intro n hn
    have hpr3 : ((calculateMetrics (buildGraphFromLinks links) sched).1).map
          (fun n => n.pagerank) =
        (rankIter 20 (initRanks (applyDegrees (buildNodes links) links)) links).map
          (fun n => n.pagerank) := by
      rw [hcalc, assignGroups_map_proj (fun n => n.pagerank) (fun n g => rfl)]
    rcases exists_of_map_eq_map (fun n => n.pagerank) (fun n => n.pagerank)
      _ _ hpr3 n hn with ⟨m, hm, hmeq⟩
    rw [hmeq]
    exact rankIter_nonneg 20 _ links hnn0 m hm
  · -- sum at most one
    rw [htot3]
    exact rankIter_total_le_one links 20 _ hwf0 hne0 hnn0 (le_of_eq htot0)
  · -- sum = 1 implies no dangling node
    intro h1
    by_contra hnot
    push_neg at hnot
    rcases hnot with ⟨n, hn, hnd0⟩
    exact absurd h1 (ne_of_lt (hlt_of_dangling ⟨n, hn, hnd0⟩))
  · -- no dangling node implies sum = 1
    intro hall
    have hall0 : ∀ n ∈ initRanks (applyDegrees (buildNodes links) links), n.outDegree ≠ 0 :=
      (forall_outDegree_iff _ _ hout3).mp hall
    have hdeg0 : ∀ n ∈ initRanks (applyDegrees (buildNodes links) links), 0 < n.outDegree :=
      fun n hn => Nat.pos_of_ne_zero (hall0 n hn)
    rw [htot3]
    exact rankIter_total_no_dangling links 20 _ hwf0 hne0 hdeg0 htot0

/-- C2, counterexample to the claim as stated over all graphs: on the empty
edge list (a legal graph for this pipeline) no node has out-degree 0
(vacuously), yet the rank sum is 0, not 1 — the "equality iff" direction
fails. -/
theorem C2_rank_mass_counterexample :
    (∀ n ∈ (calculateMetrics (buildGraphFromLinks []) schedNil).1, n.outDegree ≠ 0) ∧
    totalRank (calculateMetrics (buildGraphFromLinks []) schedNil).1 ≠ 1 := by
  with_unfolding_all decide

set_option maxRecDepth 100000 in
/-- C2, witness: the spec's dangling scenario `[("A","B")]` — the graph is
nonempty and the rank sum after propagation is strictly below 1. -/
theorem C2_rank_mass_witness :
    (buildGraphFromLinks [{ source := "A", target := "B" }]).nodes ≠ [] ∧
    totalRank (calculateMetrics
      (buildGraphFromLinks [{ source := "A", target := "B" }]) schedNil).1 < 1 := by
  refine ⟨by with_unfolding_all decide, ?_⟩
  have h := C2_rank_mass [{ source := "A", target := "B" }] schedNil
    (by with_unfolding_all decide)
  exact h.2.2.2 (by with_unfolding_all decide)

/-- C3: the implementation's rank propagation is exactly the spec's
recurrence: ranks start at `1/N`, run exactly 20 rounds of
`new(v) = (1-d)/N + Σ_{(u,v), outDegree(u) > 0} d * rank(u) / outDegree(u)`
with `d = 0.85` (dangling sources contributing nothing), and the round-20
vector is what `calculateMetrics` stores on the nodes. -/
theorem C3_rank_recurrence (links : List Link) (sched : ℕ → List ℕ) :
    ((calculateMetrics (buildGraphFromLinks links) sched).1).map
        (fun n => (n.id, n.pagerank)) =
      specRanks ((buildGraphFromLinks links).nodes.map Node.id) links 20 := by
  rw [calculateMetrics_fst]
  unfold updatedNodes rankedNodes
  rw [assignGroups_map_proj (fun n => (n.id, n.pagerank)) (fun n g => rfl)]
  exact rankIter_eq_specRanks links 20

/-- C4 (amended): whenever `generateSampleData` terminates, the produced
node count is `max 5 n` (NOT `n`: the 5 seed nodes are always built, so a
request for fewer than 5 yields 5); the seed phase contributes exactly the
first 10 edges, the complete graph on the 5 seed users; each growth step
adds exactly 2 edges incident to its new node; and in the final graph every
post-seed node has at least 2 incident edges. -/
theorem C4_generator_counts (n : ℕ) (rng : ℕ → ℚ) (fuel : ℕ) (g : GraphData)
    (h : generateSampleData n rng fuel = some g) :
    g.nodes.length = max 5 n ∧
    g.links.take 10 = seedLinks ∧
    seedLinks.length = 10 ∧
    (∀ i j : ℕ, i < j → j < 5 →
      ({ source := userId i, target := userId j } : Link) ∈ g.links) ∧
    (∀ (newId : String) (pairs : List (String × ℕ)) (total t : ℕ)
        (links links' : List Link) (t' : ℕ),
      growLoop newId pairs total rng t links 0 fuel = some (links', t') →
      countIncident links' newId = countIncident links newId + 2) ∧
    (∀ i, 5 ≤ i → i < n → 2 ≤ countIncident g.links (userId i)) := by
  unfold generateSampleData at h
  rcases Option.map_eq_some'.mp h with ⟨r, hr, hg⟩
  obtain ⟨ids', links', t'⟩ := r
  have hinv := growAll_inv rng fuel (n - 5) 5 seedIds seedLinks 0 ids' links' t' hr
    rfl (by decide) (by decide) (by decide) (by decide) (fun j h5 hj5 => absurd h5 (by omega))
  obtain ⟨hids', hend', hcov', hself', hdup', hcnt'⟩ := hinv
  have hglinks : g.links = links' := by rw [← hg]; rfl
  have hgnodes : g.nodes = buildNodes links' := by rw [← hg]; rfl

  refine ⟨?_, ?_, by decide, ?_, ?_, ?_⟩
  · rw [hgnodes]
    have hnd1 : ((buildNodes links').map Node.id).Nodup := buildNodes_nodup links'
    have hnd2 : ((List.range (5 + (n - 5))).map userId).Nodup :=
      (List.nodup_range _).map (fun a b hab => userId_inj a b hab)
    have hmemiff : ∀ s, s ∈ (buildNodes links').map Node.id ↔
        s ∈ (List.range (5 + (n - 5))).map userId := by
      intro s
      constructor
      · intro hs
        rcases List.mem_map.mp hs with ⟨m, hm, hms⟩
        rcases mem_buildNodes links' m hm with ⟨l, hl, hor⟩
        rw [← hids']
        rcases hor with hor | hor
        · exact hms ▸ hor ▸ (hend' l hl).1
        · exact hms ▸ hor ▸ (hend' l hl).2
      · intro hs
        rw [← hids'] at hs
        rcases hcov' s hs with ⟨l, hl, hor⟩
        rcases hor with hor | hor
        · rcases (buildNodes_covers links' l hl).1 with ⟨m, hm, hms⟩
          exact List.mem_map.mpr ⟨m, hm, hms.trans hor⟩
        · rcases (buildNodes_covers links' l hl).2 with ⟨m, hm, hms⟩
          exact List.mem_map.mpr ⟨m, hm, hms.trans hor⟩
    have hperm : List.Perm ((buildNodes links').map Node.id)
        ((List.range (5 + (n - 5))).map userId) :=
      (List.perm_ext_iff_of_nodup hnd1 hnd2).mpr hmemiff
    have hlen := hperm.length_eq
    rw [List.length_map, List.length_map, List.length_range] at hlen
    rw [hlen]
    omega
  · rw [hglinks]
    rcases growAll_append rng fuel (n - 5) 5 seedIds seedLinks 0 ids' links' t' hr
      with ⟨L2, hL2⟩
    rw [hL2, show (10 : ℕ) = seedLinks.length from by decide, List.take_left]
  · intro i j hij hj5
    have hi5 : i < 5 := lt_trans hij hj5
    rw [hglinks]
    rcases growAll_append rng fuel (n - 5) 5 seedIds seedLinks 0 ids' links' t' hr
      with ⟨L2, hL2⟩
    rw [hL2]
    apply List.mem_append_left
    interval_cases i <;> interval_cases j <;> decide
  · intro newId pairs total t links links1 t1 hstep
    rcases growLoop_append_count newId pairs total rng fuel t links 0 links1 t1
      (by omega) hstep with ⟨L, hL, hLlen, hLmem⟩
    rw [hL, countIncident_append,
      countIncident_all_src L newId (fun l hl => (hLmem l hl).1)]
    omega
  · intro i h5 hin
    rw [hglinks]
    exact hcnt' i h5 (by omega)

/-- Counterexample to C4 as stated: requesting `n = 3` nodes still produces
the 5-node seed graph, so the node count is 5, not 3. -/
theorem C4_generator_counts_counterexample :
    (generateSampleData 3 (fun _ => 0) 0).map (fun g => g.nodes.length) = some 5 ∧
    (5 : ℕ) ≠ 3 := by
  constructor
  · with_unfolding_all decide
  · decide

/-- Witness for C4: a concrete successful run with `n = 6` — the stream
picks `User_0` then `User_1` as attachment targets — has `max 5 6 = 6`
nodes. -/
theorem C4_generator_counts_witness :
    generateSampleData 6 (fun t => if t = 0 then 0 else 3 / 13) 10 =
      some (buildGraphFromLinks (seedLinks ++
        [{ source := "User_5", target := "User_0" },
         { source := "User_5", target := "User_1" }])) ∧
    (buildGraphFromLinks (seedLinks ++
        [{ source := "User_5", target := "User_0" },
         { source := "User_5", target := "User_1" }])).nodes.length = max 5 6 :=
  ⟨by with_unfolding_all decide,
   (C4_generator_counts 6 (fun t => if t = 0 then 0 else 3 / 13) 10
      (buildGraphFromLinks (seedLinks ++
        [{ source := "User_5", target := "User_0" },
         { source := "User_5", target := "User_1" }]))
      (by with_unfolding_all decide)).1⟩

/-- C10: every edge list produced by `generateSampleData` contains no
self-loop and no two edges joining the same unordered pair of nodes: the
seed emits each pair once and the growth phase rejects a candidate target
whenever an edge between the new node and that target already exists in
either direction. -/
theorem C10_generator_edge_invariants (n : ℕ) (rng : ℕ → ℚ) (fuel : ℕ)
    (g : GraphData) (h : generateSampleData n rng fuel = some g) :
    (∀ l ∈ g.links, l.source ≠ l.target) ∧
    g.links.Pairwise (fun a b => ¬ sameUndirected a b) := by
  unfold generateSampleData at h
  rcases Option.map_eq_some'.mp h with ⟨r, hr, hg⟩
  obtain ⟨ids', links', t'⟩ := r
  have hinv := growAll_inv rng fuel (n - 5) 5 seedIds seedLinks 0 ids' links' t' hr
    rfl (by decide) (by decide) (by decide) (by decide) (fun j h5 hj5 => absurd h5 (by omega))
  have hglinks : g.links = links' := by rw [← hg]; rfl
  rw [hglinks]
  exact ⟨hinv.2.2.2.1, hinv.2.2.2.2.1⟩

/-- Witness for C10: the concrete `n = 6` run has no self-loops among its
12 edges. -/
theorem C10_generator_edge_invariants_witness :
    generateSampleData 6 (fun t => if t = 0 then (1 : ℚ) / 2 else 3 / 13) 10 =
      some (buildGraphFromLinks (seedLinks ++
        [{ source := "User_5", target := "User_2" },
         { source := "User_5", target := "User_1" }])) ∧
    ∀ l ∈ (buildGraphFromLinks (seedLinks ++
        [{ source := "User_5", target := "User_2" },
         { source := "User_5", target := "User_1" }])).links,
      l.source ≠ l.target :=
  ⟨by with_unfolding_all decide,
   (C10_generator_edge_invariants 6 (fun t => if t = 0 then (1 : ℚ) / 2 else 3 / 13) 10
      (buildGraphFromLinks (seedLinks ++
        [{ source := "User_5", target := "User_2" },
         { source := "User_5", target := "User_1" }]))
      (by with_unfolding_all decide)).1⟩

/-- C5: after community detection the stored community ids are exactly
`{0, ..., k-1}` where `k` is the number of distinct final labels, and each
node's id is the number of distinct labels appearing strictly before the
first occurrence of its own final label when scanning nodes in construction
order (first-appearance numbering). -/
theorem C5_community_ids (links : List Link) (sched : ℕ → List ℕ) :
    (∀ n ∈ (calculateMetrics (buildGraphFromLinks links) sched).1,
        0 ≤ n.group ∧
        n.group < ((dedupFirst ((finalLabels (buildGraphFromLinks links) sched).map
          (fun p => p.2))).length : ℤ)) ∧
    (∀ j : ℕ, j < (dedupFirst ((finalLabels (buildGraphFromLinks links) sched).map
          (fun p => p.2))).length →
        ∃ n ∈ (calculateMetrics (buildGraphFromLinks links) sched).1, n.group = (j : ℤ)) ∧
    (∀ n ∈ (calculateMetrics (buildGraphFromLinks links) sched).1,
        n.group = ((dedupFirst (((finalLabels (buildGraphFromLinks links) sched).map
            (fun p => p.2)).take
          (((finalLabels (buildGraphFromLinks links) sched).map (fun p => p.2)).indexOf
            (lookupD (finalLabels (buildGraphFromLinks links) sched) n.id "")))).length : ℤ)) := by
  have hout_eq : (calculateMetrics (buildGraphFromLinks links) sched).1 =
      assignGroups (rankedNodes (buildGraphFromLinks links))
        (finalLabels (buildGraphFromLinks links) sched) := by
    rw [calculateMetrics_fst]
    rfl
  have hm_ids : (rankedNodes (buildGraphFromLinks links)).map (fun n => n.id) =
      (buildNodes links).map Node.id := by
    show (rankIter 20 (initRanks (applyDegrees (buildGraphFromLinks links).nodes
        (buildGraphFromLinks links).links)) (buildGraphFromLinks links).links).map
        (fun n => n.id) = _
    rw [rankIter_map_proj (fun n => n.id) (fun n q => rfl), initRanks_map_proj
      (fun n => n.id) (fun n q => rfl), applyDegrees_eq, List.map_map]
    exact List.map_congr_left (fun n _ => rfl)
  have hnodup_m : ((rankedNodes (buildGraphFromLinks links)).map (fun n => n.id)).Nodup := by
    rw [hm_ids]
    exact buildNodes_nodup links
  have hkeys : (finalLabels (buildGraphFromLinks links) sched).map (fun p => p.1) =
      (rankedNodes (buildGraphFromLinks links)).map (fun n => n.id) :=
    communityLabels_keys _ _ _
  have hnodup_keys : ((finalLabels (buildGraphFromLinks links) sched).map
      (fun p => p.1)).Nodup := by
    rw [hkeys]
    exact hnodup_m
  have hval : ∀ n ∈ rankedNodes (buildGraphFromLinks links),
      lookupD (finalLabels (buildGraphFromLinks links) sched) n.id "" ∈
        (finalLabels (buildGraphFromLinks links) sched).map (fun p => p.2) := by
    intro n hn
    apply lookupD_mem_values
    have : n.id ∈ (finalLabels (buildGraphFromLinks links) sched).map (fun p => p.1) := by
      rw [hkeys]
      exact List.mem_map.mpr ⟨n, hn, rfl⟩
    rcases List.mem_map.mp this with ⟨p, hp, hpk⟩
    exact ⟨p, hp, hpk⟩
  refine ⟨?_, ?_, ?_⟩
  · -- bounds
    intro n' hn'
    rw [hout_eq] at hn'
    unfold assignGroups at hn'
    rcases List.mem_map.mp hn' with ⟨n, hn, rfl⟩
    dsimp only
    have hv := hval n hn
    have hvu := (mem_dedupFirst _ _).mpr hv
    unfold jsIndexOf
    rw [if_pos hvu]
    constructor
    · exact_mod_cast Int.ofNat_nonneg _
    · exact_mod_cast List.indexOf_lt_length.mpr hvu
  · -- surjectivity
    intro j hj
    have hx_u : (dedupFirst ((finalLabels (buildGraphFromLinks links) sched).map
        (fun p => p.2))).get ⟨j, hj⟩ ∈ dedupFirst ((finalLabels
          (buildGraphFromLinks links) sched).map (fun p => p.2)) :=
      List.get_mem _ _ _
    have hx_vals := (mem_dedupFirst _ _).mp hx_u
    rcases List.mem_map.mp hx_vals with ⟨p, hp, hpv⟩
    have hpk : p.1 ∈ (rankedNodes (buildGraphFromLinks links)).map (fun n => n.id) := by
      rw [← hkeys]
      exact List.mem_map.mpr ⟨p, hp, rfl⟩
    rcases List.mem_map.mp hpk with ⟨n, hn, hnid⟩
    refine ⟨{ n with group :=
        (jsIndexOf (dedupFirst ((finalLabels (buildGraphFromLinks links) sched).map
          (fun p => p.2)))
          (lookupD (finalLabels (buildGraphFromLinks links) sched) n.id "")) }, ?_, ?_⟩
    · rw [hout_eq]
      unfold assignGroups
      exact List.mem_map.mpr ⟨n, hn, rfl⟩
    · dsimp only
      rw [hnid, lookupD_of_mem_nodup _ p "" hp hnodup_keys, hpv]
      unfold jsIndexOf
      rw [if_pos hx_u]
      exact_mod_cast indexOf_get_of_nodup _ (nodup_dedupFirst _) j hj
  · -- first-appearance rule
    intro n' hn'
    rw [hout_eq] at hn'
    unfold assignGroups at hn'
    rcases List.mem_map.mp hn' with ⟨n, hn, rfl⟩
    dsimp only
    exact jsIndexOf_dedupFirst_take _ _ (hval n hn)

/-- C6: in each label-propagation visit, a node with no neighbor labels
keeps the label map unchanged; otherwise its new label is one of its
undirected-neighbor labels, has maximal frequency among them, and is the
first label of the scan whose running tally reaches that maximum (a later
label must strictly exceed the running maximum to replace the winner); and
a round processes its visit order left to right, each visit reading the
label map already updated by the earlier visits of the same round. -/
theorem C6_label_propagation_visit (links : List Link)
    (labels : List (String × String)) (nid : String) (order : List String) :
    (neighborLabelsOf links labels nid = [] → visitNode links labels nid = labels) ∧
    (neighborLabelsOf links labels nid ≠ [] →
      lookupD (visitNode links labels nid) nid "" ∈ neighborLabelsOf links labels nid ∧
      (∀ lbl ∈ neighborLabelsOf links labels nid,
        (neighborLabelsOf links labels nid).count lbl ≤
          (neighborLabelsOf links labels nid).count
            (lookupD (visitNode links labels nid) nid "")) ∧
      firstEncounteredMax (neighborLabelsOf links labels nid)
        ((neighborLabelsOf links labels nid).count
          (lookupD (visitNode links labels nid) nid ""))
        (lookupD (visitNode links labels nid) nid "")) ∧
    (labelRound links (order ++ [nid]) labels =
      visitNode links (labelRound links order labels) nid) := by
  refine ⟨?_, ?_, ?_⟩
  · intro h
    unfold visitNode
    dsimp only
    rw [h]
    simp
  · intro hne
    rw [visitNode_label links labels nid hne]
    exact bestLabelScan_spec _ _ hne
  · unfold labelRound
    rw [List.foldl_append]
    rfl

/-- Witness for C6: in the path graph A–B–C where A and C both carry label
"x" and B carries "y", visiting B has neighbor labels and adopts one of
them; visiting the untouched id Z has none and leaves the map unchanged. -/
theorem C6_label_propagation_visit_witness :
    (neighborLabelsOf [{ source := "A", target := "B" }, { source := "B", target := "C" }]
        [("A", "x"), ("B", "y"), ("C", "x")] "B" ≠ [] ∧
      lookupD (visitNode [{ source := "A", target := "B" }, { source := "B", target := "C" }]
          [("A", "x"), ("B", "y"), ("C", "x")] "B") "B" "" ∈
        neighborLabelsOf [{ source := "A", target := "B" }, { source := "B", target := "C" }]
          [("A", "x"), ("B", "y"), ("C", "x")] "B") ∧
    (neighborLabelsOf [{ source := "A", target := "B" }, { source := "B", target := "C" }]
        [("A", "x"), ("B", "y"), ("C", "x")] "Z" = [] ∧
      visitNode [{ source := "A", target := "B" }, { source := "B", target := "C" }]
          [("A", "x"), ("B", "y"), ("C", "x")] "Z" =
        [("A", "x"), ("B", "y"), ("C", "x")]) :=
  ⟨⟨by decide,
    ((C6_label_propagation_visit
      [{ source := "A", target := "B" }, { source := "B", target := "C" }]
      [("A", "x"), ("B", "y"), ("C", "x")] "B" []).2.1 (by decide)).1⟩,
   ⟨by decide,
    (C6_label_propagation_visit
      [{ source := "A", target := "B" }, { source := "B", target := "C" }]
      [("A", "x"), ("B", "y"), ("C", "x")] "Z" []).1 (by decide)⟩⟩

/-- C8: re-running `calculateMetrics` with the same link list and the same
random visit orders on the model whose nodes already carry the metrics of
the first run reproduces the first run exactly — node metrics and summary
metrics are identical both times.  (The pipeline reads only each node's id
and betweenness, and it preserves both, so the second run is determined by
the same data as the first.) -/
theorem C8_idempotent (data : GraphData) (sched : ℕ → List ℕ) :
    calculateMetrics
        { nodes := (calculateMetrics data sched).1, links := data.links } sched =
      calculateMetrics data sched := by
  have hproj : ((calculateMetrics data sched).1).map proj2 = data.nodes.map proj2 := by
    rw [calculateMetrics_fst]
    unfold updatedNodes rankedNodes
    rw [assignGroups_map_proj proj2 (fun n g => rfl),
      rankIter_map_proj proj2 (fun n q => rfl),
      initRanks_map_proj proj2 (fun n q => rfl), applyDegrees_eq, List.map_map]
    exact List.map_congr_left (fun n _ => rfl)
  exact calculateMetrics_congr ((calculateMetrics data sched).1) data.nodes
    data.links sched hproj

/-- C9: whenever the text-generation collaborator fails,
`analyzeNetworkWithGemini` returns the fixed fallback string; and on every
input the result is either that fallback or derived from a successful
collaborator response (the empty-response substitute or the response text),
so no failure is ever propagated to the caller. -/
theorem C9_gemini_fallback (gen : String → Except String String)
    (data : GraphData) (metrics : NetworkMetrics) :
    (∀ e, gen (buildPrompt data metrics) = Except.error e →
      analyzeNetworkWithGemini gen data metrics = fallbackMessage) ∧
    (analyzeNetworkWithGemini gen data metrics = fallbackMessage ∨
      ∃ t, gen (buildPrompt data metrics) = Except.ok t ∧
        analyzeNetworkWithGemini gen data metrics =
          if t = "" then emptyResponseMessage else t) := by
  unfold analyzeNetworkWithGemini
  rcases hg : gen (buildPrompt data metrics) with e | t
  · exact ⟨fun _ _ => rfl, Or.inl rfl⟩
  · exact ⟨fun e he => by simp [hg] at he, Or.inr ⟨t, by simp [hg], rfl⟩⟩

/-- Witness for C9: a collaborator that always throws makes
`analyzeNetworkWithGemini` return the fallback string. -/
theorem C9_gemini_fallback_witness :
    (fun _ : String => (Except.error "boom" : Except String String))
        (buildPrompt { nodes := [], links := [] }
          { nodeCount := 0, edgeCount := 0, density := JSNum.nan,
            avgDegree := JSNum.nan, diameter := "N/A (Disconnected or Complex)",
            modularity := JSNum.nan }) = Except.error "boom" ∧
    analyzeNetworkWithGemini (fun _ => Except.error "boom")
        { nodes := [], links := [] }
        { nodeCount := 0, edgeCount := 0, density := JSNum.nan,
          avgDegree := JSNum.nan, diameter := "N/A (Disconnected or Complex)",
          modularity := JSNum.nan } = fallbackMessage :=
  ⟨rfl,
   (C9_gemini_fallback (fun _ => Except.error "boom")
      { nodes := [], links := [] }
      { nodeCount := 0, edgeCount := 0, density := JSNum.nan,
        avgDegree := JSNum.nan, diameter := "N/A (Disconnected or Complex)",
        modularity := JSNum.nan }).1 "boom" rfl⟩

/-- C7: after `calculateMetrics`, `degree = inDegree + outDegree` for every
node of any input graph; on a built graph the counters are recomputed from
the links alone (so prior values are irrelevant — the reset), and appending
a self-loop at `a` bumps that node's in- and out-degree by one each and its
degree by two. -/
theorem C7_degree_decomposition :
    (∀ (data : GraphData) (sched : ℕ → List ℕ),
      ∀ n ∈ (calculateMetrics data sched).1, n.degree = n.inDegree + n.outDegree) ∧
    (∀ (links : List Link) (sched : ℕ → List ℕ),
      ∀ n ∈ (calculateMetrics (buildGraphFromLinks links) sched).1,
        n.inDegree = tgtCount links n.id ∧ n.outDegree = srcCount links n.id) ∧
    (∀ (links : List Link) (a : String) (sched : ℕ → List ℕ),
      ∀ n ∈ (calculateMetrics
          (buildGraphFromLinks (links ++ [{ source := a, target := a }])) sched).1,
        n.id = a →
          n.inDegree = tgtCount links a + 1 ∧
          n.outDegree = srcCount links a + 1 ∧
          n.degree = (tgtCount links a + srcCount links a) + 2) := by
  have hbuilt : ∀ (links : List Link) (sched : ℕ → List ℕ),
      ∀ n ∈ (calculateMetrics (buildGraphFromLinks links) sched).1,
        n.inDegree = tgtCount links n.id ∧ n.outDegree = srcCount links n.id := by
    intro links sched n hn
    have h := calcMetrics_degree_facts (buildGraphFromLinks links) sched n hn
    have hres := buildNodes_resolves links
    constructor
    · rw [h.2.1]
      exact inCount_eq_tgtCount _ _ _ hres
    · rw [h.2.2]
      exact outCount_eq_srcCount _ _ _ hres
  refine ⟨fun data sched n hn => (calcMetrics_degree_facts data sched n hn).1, hbuilt, ?_⟩
  intro links a sched n hn hna
  have h := hbuilt _ sched n hn
  have hdeg := (calcMetrics_degree_facts _ sched n hn).1
  have hin : n.inDegree = tgtCount links a + 1 := by
    rw [h.1, hna, tgtCount_append]
    have : tgtCount [{ source := a, target := a }] a = 1 := by
      simp [tgtCount]
    omega
  have hout : n.outDegree = srcCount links a + 1 := by
    rw [h.2, hna, srcCount_append]
    have : srcCount [{ source := a, target := a }] a = 1 := by
      simp [srcCount]
    omega
  exact ⟨hin, hout, by omega⟩

set_option maxRecDepth 100000 in
/-- C7, witness: on the graph `[("A","B")] ++ [("A","A")]` (an edge plus a
self-loop at A), the first output node is A, with in-degree 1, out-degree 2
and degree 3 = 1 + 2. -/
theorem C7_degree_decomposition_witness :
    ((calculateMetrics
        (buildGraphFromLinks ([{ source := "A", target := "B" }] ++
          [{ source := "A", target := "A" }])) schedNil).1).headI.id = "A" ∧
    ((calculateMetrics
        (buildGraphFromLinks ([{ source := "A", target := "B" }] ++
          [{ source := "A", target := "A" }])) schedNil).1).headI.degree =
      ((calculateMetrics
        (buildGraphFromLinks ([{ source := "A", target := "B" }] ++
          [{ source := "A", target := "A" }])) schedNil).1).headI.inDegree +
      ((calculateMetrics
        (buildGraphFromLinks ([{ source := "A", target := "B" }] ++
          [{ source := "A", target := "A" }])) schedNil).1).headI.outDegree ∧
    ((calculateMetrics
        (buildGraphFromLinks ([{ source := "A", target := "B" }] ++
          [{ source := "A", target := "A" }])) schedNil).1).headI.inDegree = 1 ∧
    ((calculateMetrics
        (buildGraphFromLinks ([{ source := "A", target := "B" }] ++
          [{ source := "A", target := "A" }])) schedNil).1).headI.outDegree = 2 ∧
    ((calculateMetrics
        (buildGraphFromLinks ([{ source := "A", target := "B" }] ++
          [{ source := "A", target := "A" }])) schedNil).1).headI.degree = 3 := by
  have hne : (calculateMetrics
      (buildGraphFromLinks ([{ source := "A", target := "B" }] ++
        [{ source := "A", target := "A" }])) schedNil).1 ≠ [] := by
    intro h
    have hids := calculateMetrics_ids
      (buildGraphFromLinks ([{ source := "A", target := "B" }] ++
        [{ source := "A", target := "A" }])) schedNil
    rw [h] at hids
    exact absurd hids (by decide)
  have hmem := headI_mem_of_ne_nil _ hne
  have h1 := C7_degree_decomposition.1 _ schedNil _ hmem
  have hid : ((calculateMetrics
      (buildGraphFromLinks ([{ source := "A", target := "B" }] ++
        [{ source := "A", target := "A" }])) schedNil).1).headI.id = "A" := by
    with_unfolding_all decide
  have h3 := C7_degree_decomposition.2.2 _ _ schedNil _ hmem hid
  refine ⟨hid, h1, ?_, ?_, ?_⟩
  · rw [h3.1]
    decide
  · rw [h3.2.1]
    decide
  · rw [h3.2.2]
    decide

end GraphSpec
